import Mathlib

/-!
# text2midi: a verification development

A shallow embedding of `text2midi.c` (a line-oriented text score compiled into a
Standard MIDI File, format 0, single track) together with theorems about it.

Conventions of the embedding:
* a C string is a `List Char` (the bytes before the terminating NUL);
* a `ByteBuf` is the `List Nat` of the bytes appended so far (its `len` is the
  length of the list; capacity growth is not observable);
* `u32` values are `Nat` reduced `% 2^32` where the C code can wrap;
* `int` / `long long` values are `Int`, wrapped to their width where the C
  arithmetic can leave it.
-/

namespace Text2Midi

/-! ## Machine integers -/

/-- Two's complement wrap of an integer into the signed 32-bit range. -/
def wrap32 (x : Int) : Int := (x + 2147483648) % 4294967296 - 2147483648

/-- Two's complement wrap of an integer into the signed 64-bit range. -/
def wrap64 (x : Int) : Int :=
  (x + 9223372036854775808) % 18446744073709551616 - 9223372036854775808

/-- Conversion of a signed value to `u32` (reduction modulo `2^32`). -/
def toU32 (x : Int) : Nat := (x % 4294967296).toNat

/-! ## ms_to_ticks -/

/-- Embedding of `ms_to_ticks`: every `long long` operation is wrapped to 64 bits,
the division is C's truncating division. -/
def ms_to_ticks (ms bpm ppq : Int) : Nat :=
  let num : Int := wrap64 (wrap64 (ms * bpm) * ppq)
  let den : Int := 60000
  let ticks : Int := Int.tdiv (wrap64 (num + Int.tdiv den 2)) den
  let ticks : Int := if ticks < 0 then 0 else ticks
  let ticks : Int := if ticks > 0x7FFFFFFF then 0x7FFFFFFF else ticks
  toU32 ticks

/-! ## C library character classes and `atoi` -/

/-- The C locale `isspace`: space, `\t`, `\n`, `\v`, `\f`, `\r`. -/
def isspace (c : Char) : Bool :=
  c = ' ' || c = '\t' || c = '\n' || c = Char.ofNat 11 || c = Char.ofNat 12 || c = '\r'

/-- The C `isdigit`: `'0'..'9'`. -/
def isdigit (c : Char) : Bool := decide (48 ≤ c.toNat) && decide (c.toNat ≤ 57)

/-- The C locale `toupper`: `'a'..'z'` are mapped to `'A'..'Z'`, other characters
are unchanged. -/
def toupper (c : Char) : Char := c.toUpper

/-- Digit accumulation of `atoi`: consumes leading decimal digits. -/
def atoi_digits : List Char → Nat → Nat
  | [], acc => acc
  | c :: cs, acc => if isdigit c then atoi_digits cs (acc * 10 + (c.toNat - 48)) else acc

/-- Saturation of an integer to the range of `int`. -/
def clamp_int (x : Int) : Int :=
  if x > 2147483647 then 2147483647 else if x < -2147483648 then -2147483648 else x

/-- The character `s[i]` of a C string: the terminating NUL at and after the
end of the characters. -/
def char_at (s : List Char) (i : Nat) : Char := s.getD i (Char.ofNat 0)

/-- The C library `atoi`: skips leading white space, reads an optional sign and
the leading decimal digits, ignores whatever follows, and returns 0 when there
is no digit. A value outside the range of `int` is undefined in ISO C and
differs between C libraries; it is taken saturated here, as the C runtime named
in the build line of the source does. Theorems that fix the value read from a
token are stated for values within the range of `int`. -/
def atoi (s : List Char) : Int :=
  let t := s.dropWhile isspace
  if char_at t 0 = '-' then clamp_int (-(atoi_digits (t.drop 1) 0 : Int))
  else if char_at t 0 = '+' then clamp_int (atoi_digits (t.drop 1) 0 : Int)
  else clamp_int (atoi_digits t 0 : Int)

/-! ## ByteBuf -/

/-- Embedding of `bb_put`: appends the first `n` bytes of `src`. -/
def bb_put (b : List Nat) (src : List Nat) (n : Nat) : List Nat := b ++ src.take n

/-- Embedding of `bb_put_u8`: appends one byte. -/
def bb_put_u8 (b : List Nat) (v : Nat) : List Nat := b ++ [v]

/-- Embedding of `bb_put_be16`: the two low bytes of `v`, most significant first. -/
def bb_put_be16 (b : List Nat) (v : Nat) : List Nat :=
  bb_put b [((v >>> 8) &&& 0xFF) % 256, (v &&& 0xFF) % 256] 2

/-- Embedding of `bb_put_be32`: the four bytes of `v`, most significant first. -/
def bb_put_be32 (b : List Nat) (v : Nat) : List Nat :=
  bb_put b [((v >>> 24) &&& 0xFF) % 256, ((v >>> 16) &&& 0xFF) % 256,
    ((v >>> 8) &&& 0xFF) % 256, (v &&& 0xFF) % 256] 4

/-- The `while ((v >>= 7) != 0)` loop of `bb_put_vlq`: `tmp` holds the bytes
`tmp[0..n-1]` written so far, each iteration writes `tmp[n++]`. -/
def vlq_loop (v : Nat) (tmp : List Nat) : List Nat :=
  if h : v >>> 7 ≠ 0 then
    vlq_loop (v >>> 7) (tmp ++ [(((v >>> 7) &&& 0x7F) ||| 0x80) % 256])
  else tmp
termination_by v
decreasing_by
  rw [Nat.shiftRight_eq_div_pow] at h ⊢
  have h0 : v ≠ 0 := by
    intro h0
    apply h
    rw [h0]
  exact Nat.div_lt_self (Nat.pos_of_ne_zero h0) (by decide)

/-- The scratch array of `bb_put_vlq` after the loop: `tmp[0..n-1]`, low group
first; `n` is the length of the list. -/
def vlq_tmp (v : Nat) : List Nat := vlq_loop v [(v &&& 0x7F) % 256]

/-- Embedding of `bb_put_vlq`: the scratch bytes are appended from index `n-1`
down to `0`. -/
def bb_put_vlq (b : List Nat) (v : Nat) : List Nat :=
  (vlq_tmp v).reverse.foldl bb_put_u8 b

/-- Variable-length-quantity decoder following the words of the format: 7-bit
groups are read most significant first until a byte with the high bit clear;
returns the value and the unread bytes. -/
def vlq_decode_from (acc : Nat) : List Nat → Option (Nat × List Nat)
  | [] => none
  | b :: bs =>
    if b < 128 then some (acc * 128 + b, bs)
    else vlq_decode_from (acc * 128 + b % 128) bs

/-- Decoder started with an empty accumulator. -/
def vlq_decode (bs : List Nat) : Option (Nat × List Nat) := vlq_decode_from 0 bs

/-! ## note_to_midi -/

/-- The `switch (n)` of `note_to_midi`. -/
def note_base (n : Char) : Option Int :=
  if n = 'C' then some 0
  else if n = 'D' then some 2
  else if n = 'E' then some 4
  else if n = 'F' then some 5
  else if n = 'G' then some 7
  else if n = 'A' then some 9
  else if n = 'B' then some 11
  else none

/-- Embedding of `note_to_midi`: `none` is the return value 0, `some midi` is
the return value 1 with `*outMidi = midi`. The pair `bi` holds `base` and `i`
after the accidental test (`base += i++` with `i = 1`). -/
def note_to_midi (token : List Char) : Option Int :=
  if char_at token 0 = Char.ofNat 0 then none
  else
    match note_base (toupper (char_at token 0)) with
    | none => none
    | some base =>
      let bi : Int × Nat :=
        if char_at token 1 = '#' then (base + 1, 2)
        else if char_at token 1 = 'b' then (base - 1, 2)
        else (base, 1)
      if char_at token bi.2 = Char.ofNat 0
          ∨ (char_at token bi.2 ≠ '-' ∧ isdigit (char_at token bi.2) = false) then none
      else
        let octave : Int := atoi (token.drop bi.2)
        let midi : Int := wrap32 (wrap32 (wrap32 (octave + 1) * 12) + bi.1)
        if midi < 0 ∨ 127 < midi then none else some midi

/-- The decimal value of a string of digits. -/
def decimal_value (ds : List Char) : Nat :=
  ds.foldl (fun a c => a * 10 + (c.toNat - 48)) 0

/-- The note letters in either case with their base semitone:
C=0, D=2, E=4, F=5, G=7, A=9, B=11. -/
def note_letter_table : List (Char × Int) :=
  [('C', 0), ('D', 2), ('E', 4), ('F', 5), ('G', 7), ('A', 9), ('B', 11),
   ('c', 0), ('d', 2), ('e', 4), ('f', 5), ('g', 7), ('a', 9), ('b', 11)]

/-- The accidentals with their offset: none, `#` (sharp, +1), `b` (flat, -1). -/
def accidental_table : List (List Char × Int) := [([], 0), (['#'], 1), (['b'], -1)]

/-- A note letter `A`-`G` in either case. -/
def is_note_letter (c : Char) : Bool :=
  c ∈ ['A', 'B', 'C', 'D', 'E', 'F', 'G', 'a', 'b', 'c', 'd', 'e', 'f', 'g']

/-- Removes one leading accidental (`#` or lowercase `b`) when there is one. -/
def strip_accidental : List Char → List Char
  | '#' :: r => r
  | 'b' :: r => r
  | r => r

/-- Removes one leading `-` when there is one. -/
def strip_minus : List Char → List Char
  | '-' :: r => r
  | r => r

/-- The token matches `[A-Ga-g][#b]?-?\d+` in full. -/
def matches_note_grammar (token : List Char) : Bool :=
  match token with
  | [] => false
  | c :: rest =>
    is_note_letter c &&
      (let ds := strip_minus (strip_accidental rest)
       !ds.isEmpty && ds.all isdigit)

/-- A leading part of the token matches `[A-Ga-g][#b]?-?\d+`: a note letter, an
optional accidental, an optional `-` and at least one digit, then anything. -/
def matches_note_grammar_head (token : List Char) : Bool :=
  match token with
  | [] => false
  | c :: rest =>
    is_note_letter c &&
      (match strip_minus (strip_accidental rest) with
       | [] => false
       | d :: _ => isdigit d)

/-- The octave part of the token (what follows the letter and the accidental)
is a `-` that no digit follows. -/
def bare_minus_octave (token : List Char) : Bool :=
  match token with
  | [] => false
  | _ :: rest =>
    match strip_accidental rest with
    | '-' :: [] => true
    | '-' :: d :: _ => !isdigit d
    | _ => false

/-! ## Events and their order -/

/-- Embedding of the `Event` struct: `data` is the 8-byte array, `len` the number
of valid bytes in it (only ever assigned 3 or 6). -/
structure Event where
  time : Nat
  priority : Int
  data : List Nat
  len : Nat
deriving DecidableEq, Repr

/-- Embedding of `cmp_event`. -/
def cmp_event (ea eb : Event) : Int :=
  if ea.time < eb.time then -1
  else if ea.time > eb.time then 1
  else if ea.priority < eb.priority then -1
  else if ea.priority > eb.priority then 1
  else 0

/-- Embedding of `add_event`: the event is stored at the end of the array. -/
def add_event (arr : List Event) (e : Event) : List Event := arr ++ [e]

/-- An array is in ascending order according to `cmp_event` when no element
compares greater than its successor. -/
def sorted_by_cmp : List Event → Bool
  | [] => true
  | [_] => true
  | a :: b :: rest => decide (cmp_event a b ≤ 0) && sorted_by_cmp (b :: rest)

/-- The contract of the C library `qsort` called with `cmp_event`: the array
holds the same elements, in ascending order according to the comparator. The
order of elements that compare equal is unspecified. -/
def is_qsort_result (input out : List Event) : Prop :=
  out.Perm input ∧ sorted_by_cmp out = true

/-- Insertion of `e` before the first element that does not compare less. -/
def insert_event (e : Event) : List Event → List Event
  | [] => [e]
  | x :: xs => if cmp_event e x ≤ 0 then e :: x :: xs else x :: insert_event e xs

/-- One admissible behaviour of `qsort` with `cmp_event`: an insertion sort that
keeps elements comparing equal in their original order. -/
def qsort_stable (l : List Event) : List Event := l.foldr insert_event []

/-! ## The parser state and the line loop of `main` -/

/-- The byte `(u8)((x >> k) & 0xFF)` of an `int` in two's complement. -/
def byte_of (x : Int) (k : Nat) : Nat := ((x / 2 ^ k) % 256).toNat

/-- The tempo meta event built in `main` (both for the default tempo and for a
`tempo` line): `FF 51 03` and the 24-bit microseconds per quarter note. -/
def tempo_event (curTick : Nat) (bpm : Int) : Event :=
  let usPerQN : Int := wrap32 (Int.tdiv 60000000 bpm)
  { time := curTick
    priority := 0
    data := [0xFF, 0x51, 0x03, byte_of usPerQN 16, byte_of usPerQN 8, byte_of usPerQN 0, 0, 0]
    len := 6 }

/-- The note-on event of a note line. -/
def note_on_event (curTick : Nat) (channel midiNote velocity : Int) : Event :=
  { time := curTick
    priority := 2
    data := [(0x90 ||| (channel % 16).toNat) % 256, (midiNote % 256).toNat,
      (velocity % 256).toNat, 0, 0, 0, 0, 0]
    len := 3 }

/-- The note-off event of a note line; `time` is the already wrapped `u32` sum
`curTick + durTicks`. -/
def note_off_event (time : Nat) (channel midiNote : Int) : Event :=
  { time := time
    priority := 1
    data := [(0x80 ||| (channel % 16).toNat) % 256, (midiNote % 256).toNat, 0, 0, 0, 0, 0, 0]
    len := 3 }

/-- The variables of `main` that the line loop reads and writes. -/
structure State where
  bpm : Int
  ppq : Int
  channel : Int
  events : List Event
  curTick : Nat
deriving DecidableEq, Repr

/-- The state before the first line: the defaults and the initial tempo event. -/
def initial_state : State :=
  { bpm := 120
    ppq := 480
    channel := 0
    events := add_event [] (tempo_event 0 120)
    curTick := 0 }

/-- The diagnostics of the line loop, one per `return 1` of the loop. -/
inductive ParseError where
  | tempo_needs_bpm
  | bpm_out_of_range
  | ppq_needs_value
  | ppq_out_of_range
  | channel_needs_value
  | channel_out_of_range
  | rest_needs_ms
  | rest_negative
  | note_needs_duration
  | invalid_note_token
  | duration_not_positive
deriving DecidableEq, Repr

/-- Embedding of `ltrim`. -/
def ltrim (s : List Char) : List Char := s.dropWhile isspace

/-- Embedding of `rtrim_inplace`. -/
def rtrim_inplace (s : List Char) : List Char :=
  (s.reverse.dropWhile (fun c => c = '\n' || c = '\r' || isspace c)).reverse

/-- Embedding of `is_blank_or_comment`. -/
def is_blank_or_comment (s : List Char) : Bool :=
  match s.dropWhile isspace with
  | [] => true
  | c :: _ => c = '#'

/-- The delimiters passed to `strtok`: space and tab. -/
def is_delim (c : Char) : Bool := c = ' ' || c = '\t'

/-- One call of the C library `strtok` with the delimiters `" \t"` on the rest of
the line: the next token, if any, and where the following call resumes. -/
def strtok (s : List Char) : Option (List Char) × List Char :=
  match s.dropWhile is_delim with
  | [] => (none, [])
  | c :: cs =>
    (some ((c :: cs).takeWhile (fun x => !is_delim x)),
      ((c :: cs).dropWhile (fun x => !is_delim x)).drop 1)

/-- The body of the `while (fgets(...))` loop of `main` on one line buffer:
`.ok` is falling through to the next iteration (also by `continue`), `.error`
is a `return 1`. -/
def process_line (st : State) (line : List Char) : Except ParseError State :=
  let s := ltrim (rtrim_inplace (line.takeWhile (fun c => c ≠ Char.ofNat 0)))
  if is_blank_or_comment s then .ok st
  else
    let t1 := strtok s
    let t2 := strtok t1.2
    let t3 := strtok t2.2
    match t1.1 with
    | none => .ok st
    | some tok1 =>
      if tok1 = ['t', 'e', 'm', 'p', 'o'] then
        match t2.1 with
        | none => .error .tempo_needs_bpm
        | some tok2 =>
          let nbpm := atoi tok2
          if nbpm < 20 ∨ nbpm > 400 then .error .bpm_out_of_range
          else
            .ok { st with
              bpm := nbpm
              events := add_event st.events (tempo_event st.curTick nbpm) }
      else if tok1 = ['p', 'p', 'q'] then
        match t2.1 with
        | none => .error .ppq_needs_value
        | some tok2 =>
          let nppq := atoi tok2
          if nppq < 48 ∨ nppq > 9600 then .error .ppq_out_of_range
          else .ok { st with ppq := nppq }
      else if tok1 = ['c', 'h', 'a', 'n', 'n', 'e', 'l'] then
        match t2.1 with
        | none => .error .channel_needs_value
        | some tok2 =>
          let ch := atoi tok2
          if ch < 0 ∨ ch > 15 then .error .channel_out_of_range
          else .ok { st with channel := ch }
      else if tok1 = ['r', 'e', 's', 't'] then
        match t2.1 with
        | none => .error .rest_needs_ms
        | some tok2 =>
          let ms := atoi tok2
          if ms < 0 then .error .rest_negative
          else
            .ok { st with
              curTick := (st.curTick + ms_to_ticks ms st.bpm st.ppq) % 4294967296 }
      else
        match t2.1 with
        | none => .error .note_needs_duration
        | some tok2 =>
          match note_to_midi tok1 with
          | none => .error .invalid_note_token
          | some midiNote =>
            let ms := atoi tok2
            if ms ≤ 0 then .error .duration_not_positive
            else
              let velocity : Int :=
                match t3.1 with
                | none => 100
                | some tok3 =>
                  let v := atoi tok3
                  let v := if v < 0 then 0 else v
                  if v > 127 then 127 else v
              let durTicks := ms_to_ticks ms st.bpm st.ppq
              let evs := add_event st.events
                (note_on_event st.curTick st.channel midiNote velocity)
              let evs := add_event evs
                (note_off_event ((st.curTick + durTicks) % 4294967296) st.channel midiNote)
              .ok { st with
                events := evs
                curTick := (st.curTick + durTicks) % 4294967296 }

/-- The successive buffers returned by `fgets(line, 512, f)` until end of file:
each holds at most 511 characters and ends after a newline when one is met;
`cur` is the part of the current buffer already read. -/
def fgets_lines (cur : List Char) : List Char → List (List Char)
  | [] => if cur.isEmpty then [] else [cur]
  | c :: cs =>
    if c = '\n' ∨ cur.length + 1 = 511 then (cur ++ [c]) :: fgets_lines [] cs
    else fgets_lines (cur ++ [c]) cs

/-- The line loop of `main`: `lineNo` counts the buffers read so far; an error
carries the number of the offending line. -/
def parse_lines (st : State) (lineNo : Nat) :
    List (List Char) → Except (Nat × ParseError) State
  | [] => .ok st
  | l :: ls =>
    match process_line st l with
    | .error e => .error (lineNo + 1, e)
    | .ok st1 => parse_lines st1 (lineNo + 1) ls

/-- Parsing of a whole score from the initial state. -/
def parse_score (input : List Char) : Except (Nat × ParseError) State :=
  parse_lines initial_state 0 (fgets_lines [] input)

/-! ## Track and file building -/

/-- The `u32` difference `a - b`, reduced modulo `2^32`. -/
def u32_sub (a b : Nat) : Nat := (a + 4294967296 - b % 4294967296) % 4294967296

/-- The values of `delta` computed by the successive iterations of the track
loop, `last` being the value of `lastTick` before the first of them. -/
def track_deltas (last : Nat) : List Event → List Nat
  | [] => []
  | e :: es => u32_sub e.time last :: track_deltas e.time es

/-- The exact differences between the time of each event and the time of the
event before it (`last` before the first), over the integers. -/
def exact_deltas (last : Nat) : List Event → List Int
  | [] => []
  | e :: es => ((e.time : Int) - (last : Int)) :: exact_deltas e.time es

/-- One iteration of the track loop: the buffer and `lastTick` before, the
event, the buffer and `lastTick` after; `delta` is the `u32` difference. -/
def track_step (acc : List Nat × Nat) (e : Event) : List Nat × Nat :=
  let t := e.time
  let delta := u32_sub t acc.2
  (bb_put (bb_put_vlq acc.1 delta) e.data e.len, t)

/-- The track body built in `main` from the sorted event array: the events and
then the end-of-track meta event. -/
def build_track (events : List Event) : List Nat :=
  let r := events.foldl track_step ([], 0)
  bb_put (bb_put_vlq r.1 0) [0xFF, 0x2F, 0x00] 3

/-- The bytes of the four-character chunk tag `MThd`. -/
def tag_MThd : List Nat := [0x4D, 0x54, 0x68, 0x64]

/-- The bytes of the four-character chunk tag `MTrk`. -/
def tag_MTrk : List Nat := [0x4D, 0x54, 0x72, 0x6B]

/-- The whole file built in `main`: header chunk and track chunk. -/
def build_file (ppq : Int) (track : List Nat) : List Nat :=
  let out := bb_put [] tag_MThd 4
  let out := bb_put_be32 out 6
  let out := bb_put_be16 out 0
  let out := bb_put_be16 out 1
  let out := bb_put_be16 out (toU32 ppq)
  let out := bb_put out tag_MTrk 4
  let out := bb_put_be32 out (track.length % 4294967296)
  bb_put out track track.length

/-- Embedding of `main` from the input bytes to the bytes written: `qsort` is
the behaviour of the C library sort on the event array. Allocation failure and
file errors are not modelled. -/
def main (qsort : List Event → List Event) (input : List Char) :
    Except (Nat × ParseError) (List Nat) :=
  match parse_score input with
  | .error e => .error e
  | .ok st => .ok (build_file st.ppq (build_track (qsort st.events)))

/-- The track body as the format describes it: for each event its delta-time as
a variable-length quantity and its payload bytes, then `00 FF 2F 00`. -/
def track_body (deltas : List Nat) (evs : List Event) : List Nat :=
  (List.zipWith (fun d e => bb_put_vlq [] d ++ e.data.take e.len) deltas evs).flatten
    ++ [0x00, 0xFF, 0x2F, 0x00]

/-- Three events at tick 0 emitted as note-on, note-off, tempo. -/
def same_tick_events : List Event :=
  [note_on_event 0 0 60 100, note_off_event 0 0 59, tempo_event 0 90]

/-- A time-ordered sequence: tempo at 0, note-on at 0, note-off at 192,
note-on at 192, note-off at 70000. -/
def sample_track_events : List Event :=
  [tempo_event 0 120, note_on_event 0 0 60 100, note_off_event 192 0 60,
   note_on_event 192 0 62 100, note_off_event 70000 0 62]

/-- A score with two tempo commands at tick 0. -/
def two_tempo_score : List Char :=
  ['t', 'e', 'm', 'p', 'o', ' ', '1', '0', '0', '\n',
   't', 'e', 'm', 'p', 'o', ' ', '2', '0', '0', '\n']

/-- The events emitted for `two_tempo_score`: the default tempo (120 bpm), then
100 bpm and 200 bpm, all three of priority 0 at tick 0. -/
def two_tempo_events : List Event :=
  [tempo_event 0 120, tempo_event 0 100, tempo_event 0 200]

/-- The line `C4 1` with its newline. -/
def short_note_line : List Char := ['C', '4', ' ', '1', '\n']

/-- A score of `n` lines `C4 1`. -/
def short_notes_score (n : Nat) : List Char := (List.replicate n short_note_line).flatten

/-- The first token of a line buffer, as the line loop sees it. -/
def first_token (line : List Char) : Option (List Char) :=
  (strtok (ltrim (rtrim_inplace (line.takeWhile (fun c => c ≠ Char.ofNat 0))))).1

/-- The score `ppq 960`, `C4 1`. -/
def ppq_note_score : List Char :=
  ['p', 'p', 'q', ' ', '9', '6', '0', '\n', 'C', '4', ' ', '1', '\n']

/-- The state after parsing `ppq_note_score`: the default tempo event, a note-on
at tick 0 and a note-off at tick 2 (1 ms at 120 bpm and 960 ppq is 1.92 ticks). -/
def ppq_note_state : State :=
  { bpm := 120
    ppq := 960
    channel := 0
    events := [tempo_event 0 120, note_on_event 0 0 60 100, note_off_event 2 0 60]
    curTick := 2 }

/-- The two bytes of a 16-bit big-endian field holding `v`. -/
def be16_bytes (v : Nat) : List Nat := [v / 256 % 256, v % 256]

/-- The four bytes of a 32-bit big-endian field holding `v`. -/
def be32_bytes (v : Nat) : List Nat :=
  [v / 16777216 % 256, v / 65536 % 256, v / 256 % 256, v % 256]

/-- Reads a 16-bit big-endian value. -/
def read_be16 (bs : List Nat) : Nat := bs.getD 0 0 * 256 + bs.getD 1 0

/-- Reads a 32-bit big-endian value. -/
def read_be32 (bs : List Nat) : Nat :=
  ((bs.getD 0 0 * 256 + bs.getD 1 0) * 256 + bs.getD 2 0) * 256 + bs.getD 3 0

/-! ## The line loop seen command by command -/

/-- The text of a line buffer as the loop body sees it after `rtrim_inplace` and
`ltrim`. -/
def line_text (line : List Char) : List Char :=
  ltrim (rtrim_inplace (line.takeWhile (fun c => c ≠ Char.ofNat 0)))

/-- The second token of a line buffer, as the line loop sees it. -/
def second_token (line : List Char) : Option (List Char) :=
  (strtok (strtok (line_text line)).2).1

/-- The third token of a line buffer, as the line loop sees it. -/
def third_token (line : List Char) : Option (List Char) :=
  (strtok (strtok (strtok (line_text line)).2).2).1

/-- What an accepted line asks for: nothing (blank line or comment), or one of
the five kinds of line with its validated arguments. -/
inductive Command where
  | skip
  | tempo (nbpm : Int)
  | ppq (nppq : Int)
  | channel (ch : Int)
  | rest (ms : Int)
  | note (midiNote ms velocity : Int)
deriving DecidableEq, Repr

/-- The velocity of a note line: 100 without a third token, otherwise the value
of the token clamped into 0..127. -/
def note_velocity (tok3 : Option (List Char)) : Int :=
  match tok3 with
  | none => 100
  | some t =>
    let v := atoi t
    let v := if v < 0 then 0 else v
    if v > 127 then 127 else v

/-- The dispatch of the loop body on the tokens of a line that is neither blank
nor a comment: the command the line denotes, or the diagnostic of its
`return 1`. It does not read the state. -/
def command_of_tokens (tok1 : List Char) (tok2 tok3 : Option (List Char)) :
    Except ParseError Command :=
  if tok1 = ['t', 'e', 'm', 'p', 'o'] then
    match tok2 with
    | none => .error .tempo_needs_bpm
    | some t2 =>
      if atoi t2 < 20 ∨ atoi t2 > 400 then .error .bpm_out_of_range
      else .ok (.tempo (atoi t2))
  else if tok1 = ['p', 'p', 'q'] then
    match tok2 with
    | none => .error .ppq_needs_value
    | some t2 =>
      if atoi t2 < 48 ∨ atoi t2 > 9600 then .error .ppq_out_of_range
      else .ok (.ppq (atoi t2))
  else if tok1 = ['c', 'h', 'a', 'n', 'n', 'e', 'l'] then
    match tok2 with
    | none => .error .channel_needs_value
    | some t2 =>
      if atoi t2 < 0 ∨ atoi t2 > 15 then .error .channel_out_of_range
      else .ok (.channel (atoi t2))
  else if tok1 = ['r', 'e', 's', 't'] then
    match tok2 with
    | none => .error .rest_needs_ms
    | some t2 =>
      if atoi t2 < 0 then .error .rest_negative
      else .ok (.rest (atoi t2))
  else
    match tok2 with
    | none => .error .note_needs_duration
    | some t2 =>
      match note_to_midi tok1 with
      | none => .error .invalid_note_token
      | some midiNote =>
        if atoi t2 ≤ 0 then .error .duration_not_positive
        else .ok (.note midiNote (atoi t2) (note_velocity tok3))

/-- The validation part of the loop body: the command a line buffer denotes, or
the diagnostic of its `return 1`. -/
def parse_command (line : List Char) : Except ParseError Command :=
  if is_blank_or_comment (line_text line) then .ok .skip
  else
    match first_token line with
    | none => .ok .skip
    | some tok1 => command_of_tokens tok1 (second_token line) (third_token line)

/-- The state part of the loop body: what an accepted command does to the
variables of `main`. -/
def run_command (st : State) : Command → State
  | .skip => st
  | .tempo nbpm =>
    { st with
      bpm := nbpm
      events := add_event st.events (tempo_event st.curTick nbpm) }
  | .ppq nppq => { st with ppq := nppq }
  | .channel ch => { st with channel := ch }
  | .rest ms =>
    { st with curTick := (st.curTick + ms_to_ticks ms st.bpm st.ppq) % 4294967296 }
  | .note midiNote ms velocity =>
    { st with
      events := add_event
        (add_event st.events (note_on_event st.curTick st.channel midiNote velocity))
        (note_off_event ((st.curTick + ms_to_ticks ms st.bpm st.ppq) % 4294967296)
          st.channel midiNote)
      curTick := (st.curTick + ms_to_ticks ms st.bpm st.ppq) % 4294967296 }

/-- The ranges of the playback state: bpm 20..400, ppq 48..9600, channel 0..15
and an unsigned 32-bit cursor. -/
def state_ok (st : State) : Prop :=
  20 ≤ st.bpm ∧ st.bpm ≤ 400 ∧ 48 ≤ st.ppq ∧ st.ppq ≤ 9600
    ∧ 0 ≤ st.channel ∧ st.channel ≤ 15 ∧ st.curTick < 4294967296

/-- The content of the output file after a run: the file is opened for writing
(created or emptied) before the score is parsed and written only when parsing
succeeds. -/
def output_file (qsort : List Event → List Event) (input : List Char) : List Nat :=
  match main qsort input with
  | .error _ => []
  | .ok bytes => bytes

/-- The diagnostic of a line buffer that fails validation, `none` for a line
that is accepted. -/
def line_error (line : List Char) : Option ParseError :=
  match parse_command line with
  | .error e => some e
  | .ok _ => none

/-- An event moved later by `d` ticks in unsigned 32-bit arithmetic. -/
def shift_event (d : Nat) (e : Event) : Event :=
  { e with time := (e.time + d) % 4294967296 }

/-- The number of ticks by which the accepted lines of `ls`, processed from
`st`, advance the cursor, summed without reduction modulo `2^32`; a line
advances the cursor by the unsigned difference of the cursor after and before. -/
def total_advance (st : State) : List (List Char) → Nat
  | [] => 0
  | l :: ls =>
    match process_line st l with
    | .error _ => 0
    | .ok st1 => u32_sub st1.curTick st.curTick + total_advance st1 ls

/-- The score `C4 200`. -/
def c4_200_score : List Char := ['C', '4', ' ', '2', '0', '0', '\n']

/-- The events emitted for `c4_200_score`: the default tempo, a note-on at
tick 0 and a note-off at tick 192. -/
def c4_200_events : List Event :=
  [tempo_event 0 120, note_on_event 0 0 60 100, note_off_event 192 0 60]

/-- Reads a 24-bit big-endian value. -/
def read_be24 (bs : List Nat) : Nat := (bs.getD 0 0 * 256 + bs.getD 1 0) * 256 + bs.getD 2 0

/-- The line `tempo 90`. -/
def tempo_90_line : List Char := ['t', 'e', 'm', 'p', 'o', ' ', '9', '0', '\n']

/-- The line `F#3 120 90`. -/
def fs3_line : List Char := ['F', '#', '3', ' ', '1', '2', '0', ' ', '9', '0', '\n']

/-- The line `rest 2147483647`. -/
def long_rest_line : List Char :=
  ['r', 'e', 's', 't', ' ', '2', '1', '4', '7', '4', '8', '3', '6', '4', '7', '\n']

/-- The score of two lines `rest 2147483647`: at the defaults each advances the
cursor by 2061584301 ticks. -/
def two_long_rests_score : List Char := long_rest_line ++ long_rest_line

/-- The state after `two_long_rests_score`. -/
def two_long_rests_state : State :=
  { bpm := 120
    ppq := 480
    channel := 0
    events := [tempo_event 0 120]
    curTick := 4123168602 }

/-- The line `C4 2147483647`. -/
def long_note_line : List Char :=
  ['C', '4', ' ', '2', '1', '4', '7', '4', '8', '3', '6', '4', '7', '\n']

/-- The validation failures of a line by its first two tokens: a missing
argument, a tempo outside 20..400, a ppq outside 48..9600, a channel outside
0..15, a negative rest, a note token that does not resolve or a note duration
that is not positive. -/
def fails_validation (tok1 : List Char) (tok2 : Option (List Char)) : Bool :=
  match tok2 with
  | none => true
  | some t2 =>
    if tok1 = ['t', 'e', 'm', 'p', 'o'] then decide (atoi t2 < 20 ∨ 400 < atoi t2)
    else if tok1 = ['p', 'p', 'q'] then decide (atoi t2 < 48 ∨ 9600 < atoi t2)
    else if tok1 = ['c', 'h', 'a', 'n', 'n', 'e', 'l'] then decide (atoi t2 < 0 ∨ 15 < atoi t2)
    else if tok1 = ['r', 'e', 's', 't'] then decide (atoi t2 < 0)
    else (note_to_midi tok1).isNone || decide (atoi t2 ≤ 0)

/-- A line buffer fails validation: it is not blank, not a comment, and its
tokens fail. -/
def line_fails (line : List Char) : Bool :=
  match first_token line with
  | none => false
  | some tok1 => (tok1.head? != some '#') && fails_validation tok1 (second_token line)

/-- The score `tempo 500`. -/
def tempo_500_score : List Char := ['t', 'e', 'm', 'p', 'o', ' ', '5', '0', '0', '\n']

/-- The score `Z4 100`. -/
def z4_100_score : List Char := ['Z', '4', ' ', '1', '0', '0', '\n']

/-- The score `C4 0`. -/
def c4_0_score : List Char := ['C', '4', ' ', '0', '\n']

/-- The score `C4 200`, `tempo 500`, `E4 200`: a failing line between two valid
ones. -/
def bad_middle_score : List Char :=
  c4_200_score ++ tempo_500_score ++ ['E', '4', ' ', '2', '0', '0', '\n']

/-- The line `tempo 120abc`. -/
def tempo_120abc_line : List Char :=
  ['t', 'e', 'm', 'p', 'o', ' ', '1', '2', '0', 'a', 'b', 'c', '\n']

/-- The line `rest abc`. -/
def rest_abc_line : List Char := ['r', 'e', 's', 't', ' ', 'a', 'b', 'c', '\n']

/-- The cursor after each of the accepted lines of `ls`, processed from `st`. -/
def cursor_trace (st : State) : List (List Char) → List Nat
  | [] => []
  | l :: ls =>
    match process_line st l with
    | .error _ => []
    | .ok st1 => st1.curTick :: cursor_trace st1 ls

/-- The score of three lines `rest 2147483647`. -/
def three_long_rests_score : List Char := long_rest_line ++ long_rest_line ++ long_rest_line

/-- The score `C4 200`, `tempo 90`, `rest 2147483647`, `F#3 120 90`. -/
def mixed_score : List Char := c4_200_score ++ tempo_90_line ++ long_rest_line ++ fs3_line

/-- The line `ppq 960`. -/
def ppq_960_line : List Char := ['p', 'p', 'q', ' ', '9', '6', '0', '\n']

/-- The line `rest 100`. -/
def rest_100_line : List Char := ['r', 'e', 's', 't', ' ', '1', '0', '0', '\n']

/-- The line `rest 1`. -/
def rest_1_line : List Char := ['r', 'e', 's', 't', ' ', '1', '\n']

/-- The score `tempo 400`, `ppq 9600` and two lines `rest 2147483647`: each rest
is clamped to 2^31-1 ticks. -/
def fast_long_rests_score : List Char :=
  ['t', 'e', 'm', 'p', 'o', ' ', '4', '0', '0', '\n', 'p', 'p', 'q', ' ', '9', '6', '0', '0', '\n']
    ++ long_rest_line ++ long_rest_line

/-- The state after `fast_long_rests_score`: the cursor is 2^32 - 2. -/
def fast_long_rests_state : State :=
  { bpm := 400
    ppq := 9600
    channel := 0
    events := [tempo_event 0 120, tempo_event 0 400]
    curTick := 4294967294 }

/-- The state `s1` is the state `s` with the cursor moved later by `d` ticks and
the events emitted after `base` moved later by `d` ticks, in unsigned 32-bit
arithmetic. -/
def shifted (d : Nat) (base : List Event) (s s1 : State) : Prop :=
  s1.bpm = s.bpm ∧ s1.ppq = s.ppq ∧ s1.channel = s.channel
    ∧ s1.curTick = (s.curTick + d) % 4294967296
    ∧ ∃ news : List Event, s.events = base ++ news
        ∧ s1.events = base ++ news.map (shift_event d)

/-- The score `tempo 20`, `ppq 48`, `C4 1`: at 20 bpm and 48 ppq one
millisecond is 0.016 ticks, which rounds to 0. -/
def zero_tick_score : List Char :=
  ['t', 'e', 'm', 'p', 'o', ' ', '2', '0', '\n', 'p', 'p', 'q', ' ', '4', '8', '\n',
   'C', '4', ' ', '1', '\n']

/-- The events emitted for `zero_tick_score`, all four at tick 0: the default
tempo, the tempo of 20 bpm, the note-on and the note-off of the note. -/
def zero_tick_events : List Event :=
  [tempo_event 0 120, tempo_event 0 20, note_on_event 0 0 60 100, note_off_event 0 0 60]

/-! ## Helper lemmas: machine integers -/

theorem wrap64_of_range (x : Int) (h0 : -9223372036854775808 ≤ x)
    (h1 : x < 9223372036854775808) : wrap64 x = x := by
  unfold wrap64
  rw [Int.emod_eq_of_lt (by omega) (by omega)]
  omega

theorem toU32_of_range (x : Int) (h0 : 0 ≤ x) (h1 : x < 4294967296) :
    toU32 x = x.toNat := by
  unfold toU32
  rw [Int.emod_eq_of_lt h0 h1]

/-- With the arguments in their documented ranges no 64-bit operation of
`ms_to_ticks` wraps. -/
theorem ms_to_ticks_eq (ms bpm ppq : Int) (hms0 : 0 ≤ ms) (hms1 : ms ≤ 2147483647)
    (hb0 : 20 ≤ bpm) (hb1 : bpm ≤ 400) (hp0 : 48 ≤ ppq) (hp1 : ppq ≤ 9600) :
    ms_to_ticks ms bpm ppq
      = (min ((ms * bpm * ppq + 30000) / 60000) 2147483647).toNat := by
  have h1 : 0 ≤ ms * bpm := by positivity
  have h2 : ms * bpm ≤ 2147483647 * 400 := by
    apply mul_le_mul hms1 hb1 (by omega) (by omega)
  have h3 : 0 ≤ ms * bpm * ppq := by positivity
  have h4 : ms * bpm * ppq ≤ 2147483647 * 400 * 9600 := by
    apply mul_le_mul h2 hp1 (by omega) (by omega)
  unfold ms_to_ticks
  simp only []
  rw [wrap64_of_range (ms * bpm) (by omega) (by omega)]
  rw [wrap64_of_range (ms * bpm * ppq) (by omega) (by omega)]
  have hd : Int.tdiv (60000 : Int) 2 = 30000 := by decide
  rw [hd]
  rw [wrap64_of_range (ms * bpm * ppq + 30000) (by omega) (by omega)]
  have hq : Int.tdiv (ms * bpm * ppq + 30000) 60000 = (ms * bpm * ppq + 30000) / 60000 := by
    rw [Int.tdiv_eq_ediv] <;> omega
  rw [hq]
  have hq0 : 0 ≤ (ms * bpm * ppq + 30000) / 60000 := by
    apply Int.ediv_nonneg <;> omega
  have hneg : ¬ ((ms * bpm * ppq + 30000) / 60000 < 0) := by omega
  rw [if_neg hneg]
  by_cases hc : (ms * bpm * ppq + 30000) / 60000 > 2147483647
  · rw [if_pos hc, min_eq_right (by omega)]
    exact toU32_of_range _ (by omega) (by omega)
  · rw [if_neg hc, min_eq_left (by omega)]
    exact toU32_of_range _ hq0 (by omega)

/-! ## Helper lemmas: characters and `atoi` -/

theorem wrap32_of_range (x : Int) (h0 : -2147483648 ≤ x) (h1 : x < 2147483648) :
    wrap32 x = x := by
  unfold wrap32
  rw [Int.emod_eq_of_lt (by omega) (by omega)]
  omega

theorem clamp_int_of_range (x : Int) (h0 : -2147483648 ≤ x) (h1 : x ≤ 2147483647) :
    clamp_int x = x := by
  unfold clamp_int
  rw [if_neg (by omega), if_neg (by omega)]

theorem isdigit_ne (d : Char) (h : isdigit d = true) :
    d ≠ '#' ∧ d ≠ 'b' ∧ d ≠ '-' ∧ d ≠ '+' ∧ d ≠ Char.ofNat 0 ∧ isspace d = false := by
  refine ⟨?_, ?_, ?_, ?_, ?_, ?_⟩
  · rintro rfl; exact absurd h (by decide)
  · rintro rfl; exact absurd h (by decide)
  · rintro rfl; exact absurd h (by decide)
  · rintro rfl; exact absurd h (by decide)
  · rintro rfl; exact absurd h (by decide)
  · cases hsp : isspace d with
    | false => rfl
    | true =>
      simp only [isspace, Bool.or_eq_true, decide_eq_true_eq] at hsp
      rcases hsp with ((((rfl | rfl) | rfl) | rfl) | rfl) | rfl <;>
        exact absurd h (by decide)

theorem atoi_digits_all (ds : List Char) (acc : Nat) (h : ∀ c ∈ ds, isdigit c = true) :
    atoi_digits ds acc = ds.foldl (fun a c => a * 10 + (c.toNat - 48)) acc := by
  induction ds generalizing acc with
  | nil => rfl
  | cons c cs ih =>
    have hc : isdigit c = true := h c (List.mem_cons_self c cs)
    simp only [atoi_digits, hc, if_true, List.foldl_cons]
    exact ih _ (fun x hx => h x (List.mem_cons_of_mem c hx))

theorem atoi_of_digits (d : Char) (ds : List Char) (h : ∀ c ∈ d :: ds, isdigit c = true) :
    atoi (d :: ds) = clamp_int (decimal_value (d :: ds)) := by
  have hd := isdigit_ne d (h d (List.mem_cons_self d ds))
  obtain ⟨_, _, h3, h4, _, h6⟩ := hd
  unfold atoi
  simp only [List.dropWhile_cons, h6, Bool.false_eq_true, if_false, char_at, List.getD_cons_zero,
    h3, h4]
  rw [atoi_digits_all _ _ h]
  rfl

theorem atoi_of_minus_digits (ds : List Char) (h : ∀ c ∈ ds, isdigit c = true) :
    atoi ('-' :: ds) = clamp_int (-(decimal_value ds : Int)) := by
  unfold atoi
  have hs : isspace '-' = false := by decide
  simp only [List.dropWhile_cons, hs, Bool.false_eq_true, if_false, char_at,
    List.getD_cons_zero, if_true, List.drop_succ_cons, List.drop_zero]
  rw [atoi_digits_all _ _ h]
  rfl

theorem note_letter_base (l : Char) (base : Int) (h : (l, base) ∈ note_letter_table) :
    note_base (toupper l) = some base ∧ l ≠ Char.ofNat 0 ∧ 0 ≤ base ∧ base ≤ 11
      ∧ l ≠ '#' := by
  have hall : ∀ q ∈ note_letter_table,
      note_base (toupper q.1) = some q.2 ∧ q.1 ≠ Char.ofNat 0 ∧ 0 ≤ q.2 ∧ q.2 ≤ 11
        ∧ q.1 ≠ '#' := by
    decide
  exact hall (l, base) h

theorem note_base_none_of_not_letter (c : Char) (h : is_note_letter c = false) :
    note_base (toupper c) = none := by
  have hc : Char.ofNat c.toNat = c := Char.ofNat_toNat c
  by_cases hr : c.toNat ≥ 97 ∧ c.toNat ≤ 122
  · obtain ⟨h1, h2⟩ := hr
    revert h
    rw [← hc]
    generalize c.toNat = n at h1 h2
    interval_cases n <;> decide
  · have ht : toupper c = c := by
      unfold toupper Char.toUpper
      simp only [hr, if_false]
    rw [ht]
    unfold note_base
    split_ifs with h1 h2 h3 h4 h5 h6 h7
    · subst h1; exact absurd h (by decide)
    · subst h2; exact absurd h (by decide)
    · subst h3; exact absurd h (by decide)
    · subst h4; exact absurd h (by decide)
    · subst h5; exact absurd h (by decide)
    · subst h6; exact absurd h (by decide)
    · subst h7; exact absurd h (by decide)
    · rfl

theorem strip_accidental_cons (c : Char) (r : List Char) :
    strip_accidental (c :: r) = if c = '#' ∨ c = 'b' then r else c :: r := by
  by_cases h1 : c = '#'
  · subst h1; rfl
  · by_cases h2 : c = 'b'
    · subst h2; rfl
    · simp only [h1, h2, or_self, if_false]
      unfold strip_accidental
      split
      · rename_i heq; exact absurd (List.cons.inj heq).1 h1
      · rename_i heq; exact absurd (List.cons.inj heq).1 h2
      · rfl

theorem strip_minus_cons (c : Char) (r : List Char) :
    strip_minus (c :: r) = if c = '-' then r else c :: r := by
  by_cases h1 : c = '-'
  · subst h1; rfl
  · simp only [h1, if_false]
    unfold strip_minus
    split
    · rename_i heq; exact absurd (List.cons.inj heq).1 h1
    · rfl

theorem guarded_pitch_range (c : Prop) [Decidable c] (m p : Int)
    (h : (if c then none else if m < 0 ∨ 127 < m then none else some m) = some p) :
    0 ≤ p ∧ p ≤ 127 := by
  by_cases hc : c
  · rw [if_pos hc] at h; cases h
  · rw [if_neg hc] at h
    by_cases hm : m < 0 ∨ 127 < m
    · rw [if_pos hm] at h; cases h
    · rw [if_neg hm] at h
      simp only [Option.some.injEq] at h
      omega

theorem note_to_midi_range (token : List Char) (p : Int) (h : note_to_midi token = some p) :
    0 ≤ p ∧ p ≤ 127 := by
  unfold note_to_midi at h
  by_cases h0 : char_at token 0 = Char.ofNat 0
  · rw [if_pos h0] at h; cases h
  · rw [if_neg h0] at h
    cases hb : note_base (toupper (char_at token 0)) with
    | none => simp only [hb] at h; cases h
    | some base =>
      simp only [hb] at h
      exact guarded_pitch_range _ _ p h

/-! ## Helper lemmas: variable-length quantities -/

theorem and_7F (w : Nat) : w &&& 0x7F = w % 128 := by
  have h := Nat.and_pow_two_sub_one_eq_mod w 7
  simpa using h

theorem and_FF (w : Nat) : w &&& 0xFF = w % 256 := by
  have h := Nat.and_pow_two_sub_one_eq_mod w 8
  simpa using h

theorem or_80 : ∀ x < 128, (x ||| 0x80) % 256 = x + 128 := by decide

theorem vlq_loop_step (v : Nat) (tmp : List Nat) :
    vlq_loop v tmp
      = if v / 128 ≠ 0 then vlq_loop (v / 128) (tmp ++ [v / 128 % 128 + 128]) else tmp := by
  rw [vlq_loop]
  have hs : v >>> 7 = v / 128 := by rw [Nat.shiftRight_eq_div_pow]
  simp only [hs, and_7F, or_80 _ (Nat.mod_lt (v / 128) (by decide : 128 > 0)), dite_eq_ite]

theorem vlq_loop_append (v : Nat) (tmp : List Nat) :
    vlq_loop v tmp = tmp ++ vlq_loop v [] := by
  induction v using Nat.strong_induction_on generalizing tmp with
  | _ v ih =>
    rw [vlq_loop_step v tmp, vlq_loop_step v []]
    by_cases h : v / 128 ≠ 0
    · have hlt : v / 128 < v :=
        Nat.div_lt_self (Nat.pos_of_ne_zero (fun h0 => h (by rw [h0]))) (by decide)
      rw [if_pos h, if_pos h, ih _ hlt (tmp ++ [v / 128 % 128 + 128]),
        ih _ hlt ([] ++ [v / 128 % 128 + 128])]
      simp
    · rw [if_neg h, if_neg h]
      simp

theorem vlq_loop_small (v : Nat) (h : v / 128 = 0) : vlq_loop v [] = [] := by
  rw [vlq_loop_step, if_neg (by simp [h])]

theorem vlq_loop_big (v : Nat) (h : v / 128 ≠ 0) :
    vlq_loop v [] = (v / 128 % 128 + 128) :: vlq_loop (v / 128) [] := by
  rw [vlq_loop_step, if_pos h, vlq_loop_append]
  rfl

theorem vlq_tmp_eq (v : Nat) : vlq_tmp v = v % 128 :: vlq_loop v [] := by
  unfold vlq_tmp
  rw [vlq_loop_append, and_7F]
  have h : v % 128 % 256 = v % 128 := Nat.mod_eq_of_lt (by omega)
  rw [h]
  rfl

theorem foldl_bb_put_u8 (l b : List Nat) : l.foldl bb_put_u8 b = b ++ l := by
  induction l generalizing b with
  | nil => simp
  | cons x xs ih => simp [List.foldl_cons, ih, bb_put_u8]

theorem bb_put_vlq_eq (b : List Nat) (v : Nat) :
    bb_put_vlq b v = b ++ ((vlq_loop v []).reverse ++ [v % 128]) := by
  unfold bb_put_vlq
  rw [foldl_bb_put_u8, vlq_tmp_eq, List.reverse_cons]

theorem bb_put_vlq_append (b : List Nat) (v : Nat) :
    bb_put_vlq b v = b ++ bb_put_vlq [] v := by
  rw [bb_put_vlq_eq b v, bb_put_vlq_eq [] v, List.nil_append]

theorem vlq_loop_length (k v : Nat) (h : v < 128 ^ (k + 1)) :
    (vlq_loop v []).length ≤ k := by
  induction k generalizing v with
  | zero =>
    rw [vlq_loop_small v (by omega)]
    simp
  | succ k ih =>
    by_cases hz : v / 128 = 0
    · rw [vlq_loop_small v hz]; simp
    · rw [vlq_loop_big v hz]
      have h2 : v / 128 < 128 ^ (k + 1) := by
        rw [Nat.div_lt_iff_lt_mul (by decide)]
        calc v < 128 ^ (k + 1 + 1) := h
          _ = 128 ^ (k + 1) * 128 := by rw [Nat.pow_succ]
      have := ih (v / 128) h2
      simp only [List.length_cons]
      omega

theorem vlq_loop_covers (v : Nat) : v / 128 < 128 ^ (vlq_loop v []).length := by
  induction v using Nat.strong_induction_on with
  | _ v ih =>
    by_cases hz : v / 128 = 0
    · rw [vlq_loop_small v hz, hz]; simp
    · have hlt : v / 128 < v :=
        Nat.div_lt_self (Nat.pos_of_ne_zero (fun h0 => hz (by rw [h0]))) (by decide)
      rw [vlq_loop_big v hz]
      have := ih _ hlt
      simp only [List.length_cons, Nat.pow_succ]
      omega

theorem vlq_loop_get (v j : Nat) (h : j < (vlq_loop v []).length) :
    (vlq_loop v [])[j]? = some (v / 128 ^ (j + 1) % 128 + 128) := by
  induction v using Nat.strong_induction_on generalizing j with
  | _ v ih =>
    by_cases hz : v / 128 = 0
    · rw [vlq_loop_small v hz] at h
      simp at h
    · have hlt : v / 128 < v :=
        Nat.div_lt_self (Nat.pos_of_ne_zero (fun h0 => hz (by rw [h0]))) (by decide)
      rw [vlq_loop_big v hz] at h ⊢
      cases j with
      | zero => simp
      | succ j =>
        simp only [List.length_cons, Nat.add_lt_add_iff_right] at h
        rw [List.getElem?_cons_succ, ih _ hlt j h, Nat.div_div_eq_div_mul, Nat.pow_succ _ (j + 1),
          Nat.mul_comm]

theorem vlq_decode_loop (v : Nat) (acc : Nat) (tail : List Nat) :
    vlq_decode_from acc ((vlq_loop v []).reverse ++ tail)
      = vlq_decode_from (acc * 128 ^ (vlq_loop v []).length + v / 128) tail := by
  induction v using Nat.strong_induction_on generalizing acc tail with
  | _ v ih =>
    by_cases hz : v / 128 = 0
    · rw [vlq_loop_small v hz, hz]
      simp
    · have hlt : v / 128 < v :=
        Nat.div_lt_self (Nat.pos_of_ne_zero (fun h0 => hz (by rw [h0]))) (by decide)
      rw [vlq_loop_big v hz, List.reverse_cons, List.append_assoc, ih _ hlt]
      simp only [List.singleton_append, List.length_cons]
      rw [vlq_decode_from, if_neg (by omega)]
      congr 1
      have hm : (v / 128 % 128 + 128) % 128 = v / 128 % 128 := by omega
      rw [hm, Nat.pow_succ]
      have hd := Nat.div_add_mod (v / 128) 128
      nlinarith [hd]

theorem vlq_decode_bb_put_vlq (v : Nat) (rest : List Nat) :
    vlq_decode (bb_put_vlq [] v ++ rest) = some (v, rest) := by
  rw [bb_put_vlq_eq, List.nil_append, List.append_assoc]
  unfold vlq_decode
  rw [vlq_decode_loop]
  simp only [Nat.zero_mul, Nat.zero_add, List.singleton_append]
  rw [vlq_decode_from, if_pos (Nat.mod_lt v (by decide))]
  have hd := Nat.div_add_mod v 128
  congr 2
  omega

theorem bb_put_vlq_length (v : Nat) :
    (bb_put_vlq [] v).length = (vlq_loop v []).length + 1 := by
  rw [bb_put_vlq_eq]
  simp

theorem bb_put_vlq_get (v i : Nat) (h : i < (bb_put_vlq [] v).length) :
    (bb_put_vlq [] v)[i]?
      = some (v / 128 ^ ((bb_put_vlq [] v).length - 1 - i) % 128
          + (if i + 1 < (bb_put_vlq [] v).length then 128 else 0)) := by
  rw [bb_put_vlq_length] at h ⊢
  rw [bb_put_vlq_eq, List.nil_append]
  by_cases hi : i < (vlq_loop v []).length
  · rw [List.getElem?_append_left (by simpa using hi), List.getElem?_reverse hi,
      vlq_loop_get v _ (by omega), if_pos (by omega)]
    have he : (vlq_loop v []).length + 1 - 1 - i = (vlq_loop v []).length - 1 - i + 1 := by
      omega
    rw [he]
  · have hi2 : i = (vlq_loop v []).length := by omega
    rw [List.getElem?_append_right (by simp; omega), if_neg (by omega)]
    subst hi2
    simp

/-! ## Helper lemmas: the event order -/

theorem cmp_event_le_iff (a b : Event) :
    cmp_event a b ≤ 0 ↔ a.time < b.time ∨ (a.time = b.time ∧ a.priority ≤ b.priority) := by
  unfold cmp_event
  split_ifs with h1 h2 h3 h4 <;> constructor <;> intro _ <;> omega

theorem cmp_event_trans (a b c : Event) (h1 : cmp_event a b ≤ 0) (h2 : cmp_event b c ≤ 0) :
    cmp_event a c ≤ 0 := by
  rw [cmp_event_le_iff] at h1 h2 ⊢
  omega

theorem cmp_event_total (a b : Event) (h : ¬ cmp_event a b ≤ 0) : cmp_event b a ≤ 0 := by
  rw [cmp_event_le_iff] at h ⊢
  omega

theorem sorted_by_cmp_pairwise (l : List Event) (h : sorted_by_cmp l = true) :
    l.Pairwise (fun a b => cmp_event a b ≤ 0) := by
  induction l with
  | nil => exact List.Pairwise.nil
  | cons a t ih =>
    cases t with
    | nil => exact List.pairwise_singleton _ a
    | cons b rest =>
      simp only [sorted_by_cmp, Bool.and_eq_true, decide_eq_true_eq] at h
      have hp := ih h.2
      refine List.Pairwise.cons ?_ hp
      intro y hy
      rcases List.mem_cons.mp hy with rfl | hy
      · exact h.1
      · exact cmp_event_trans a b y h.1 ((List.pairwise_cons.mp hp).1 y hy)

theorem pairwise_sorted_by_cmp (l : List Event)
    (h : l.Pairwise (fun a b => cmp_event a b ≤ 0)) : sorted_by_cmp l = true := by
  induction l with
  | nil => rfl
  | cons a t ih =>
    cases t with
    | nil => rfl
    | cons b rest =>
      have h1 := List.pairwise_cons.mp h
      simp only [sorted_by_cmp, Bool.and_eq_true, decide_eq_true_eq]
      exact ⟨h1.1 b (List.mem_cons_self b rest), ih h1.2⟩

theorem insert_event_perm (e : Event) (l : List Event) : (insert_event e l).Perm (e :: l) := by
  induction l with
  | nil => exact List.Perm.refl _
  | cons x xs ih =>
    unfold insert_event
    split_ifs with h
    · exact List.Perm.refl _
    · exact (List.Perm.cons x ih).trans (List.Perm.swap e x xs)

theorem insert_event_pairwise (e : Event) (l : List Event)
    (h : l.Pairwise (fun a b => cmp_event a b ≤ 0)) :
    (insert_event e l).Pairwise (fun a b => cmp_event a b ≤ 0) := by
  induction l with
  | nil => exact List.pairwise_singleton _ e
  | cons x xs ih =>
    have hx := List.pairwise_cons.mp h
    unfold insert_event
    split_ifs with hc
    · refine List.Pairwise.cons ?_ h
      intro y hy
      rcases List.mem_cons.mp hy with rfl | hy
      · exact hc
      · exact cmp_event_trans e x y hc (hx.1 y hy)
    · refine List.Pairwise.cons ?_ (ih hx.2)
      intro y hy
      have hy2 : y ∈ e :: xs := (insert_event_perm e xs).subset hy
      rcases List.mem_cons.mp hy2 with rfl | hy3
      · exact cmp_event_total _ _ hc
      · exact hx.1 y hy3

theorem qsort_stable_perm (l : List Event) : (qsort_stable l).Perm l := by
  induction l with
  | nil => exact List.Perm.refl _
  | cons x xs ih =>
    exact (insert_event_perm x (qsort_stable xs)).trans (List.Perm.cons x ih)

theorem qsort_stable_pairwise (l : List Event) :
    (qsort_stable l).Pairwise (fun a b => cmp_event a b ≤ 0) := by
  induction l with
  | nil => exact List.Pairwise.nil
  | cons x xs ih => exact insert_event_pairwise x (qsort_stable xs) ih

theorem qsort_stable_is_qsort_result (l : List Event) :
    is_qsort_result l (qsort_stable l) :=
  ⟨qsort_stable_perm l, pairwise_sorted_by_cmp _ (qsort_stable_pairwise l)⟩

/-! ## Helper lemmas: the track loop -/

theorem bb_put_vlq_small (b : List Nat) (v : Nat) (h : v < 128) :
    bb_put_vlq b v = b ++ [v] := by
  rw [bb_put_vlq_eq, vlq_loop_small v (by omega), Nat.mod_eq_of_lt h]
  rfl

theorem foldl_track_step (evs : List Event) (buf : List Nat) (last : Nat) :
    (evs.foldl track_step (buf, last)).1
      = buf ++ (List.zipWith (fun d e => bb_put_vlq [] d ++ e.data.take e.len)
          (track_deltas last evs) evs).flatten := by
  induction evs generalizing buf last with
  | nil => simp [track_deltas]
  | cons e es ih =>
    rw [List.foldl_cons]
    have hs : track_step (buf, last) e
        = (buf ++ (bb_put_vlq [] (u32_sub e.time last) ++ e.data.take e.len), e.time) := by
      simp only [track_step, bb_put]
      rw [bb_put_vlq_append, List.append_assoc]
    rw [hs, ih]
    simp [track_deltas, List.append_assoc]

theorem build_track_eq (evs : List Event) :
    build_track evs = track_body (track_deltas 0 evs) evs := by
  unfold build_track track_body
  simp only [bb_put]
  rw [bb_put_vlq_small _ 0 (by decide), foldl_track_step]
  simp

theorem u32_sub_exact (a b : Nat) (hab : b ≤ a) (ha : a < 4294967296) :
    u32_sub a b = a - b := by
  unfold u32_sub
  rw [Nat.mod_eq_of_lt (by omega : b < 4294967296)]
  omega

theorem track_deltas_exact (evs : List Event) (last : Nat)
    (hl : ∀ e ∈ evs, last ≤ e.time)
    (hs : evs.Pairwise (fun a b => a.time ≤ b.time))
    (ht : ∀ e ∈ evs, e.time < 4294967296) :
    (track_deltas last evs).map Int.ofNat = exact_deltas last evs := by
  induction evs generalizing last with
  | nil => rfl
  | cons e es ih =>
    have h1 := List.pairwise_cons.mp hs
    have hle := hl e (List.mem_cons_self e es)
    have hlt := ht e (List.mem_cons_self e es)
    simp only [track_deltas, exact_deltas, List.map_cons]
    rw [ih e.time h1.1 h1.2 (fun x hx => ht x (List.mem_cons_of_mem e hx)),
      u32_sub_exact _ _ hle hlt]
    congr 1
    simp only [Int.ofNat_eq_coe]
    omega

theorem track_deltas_sum (evs : List Event) (last : Nat)
    (hl : ∀ e ∈ evs, last ≤ e.time)
    (hs : evs.Pairwise (fun a b => a.time ≤ b.time))
    (ht : ∀ e ∈ evs, e.time < 4294967296) (i : Nat) (hi : i < evs.length) :
    last + ((track_deltas last evs).take (i + 1)).sum = evs[i].time := by
  induction evs generalizing last i with
  | nil => simp at hi
  | cons e es ih =>
    have h1 := List.pairwise_cons.mp hs
    have hle := hl e (List.mem_cons_self e es)
    have hlt := ht e (List.mem_cons_self e es)
    simp only [track_deltas, List.take_succ_cons, List.sum_cons]
    rw [u32_sub_exact _ _ hle hlt]
    cases i with
    | zero =>
      simp only [List.take_zero, List.sum_nil, List.getElem_cons_zero]
      omega
    | succ j =>
      have hj : j < es.length := by simpa using hi
      have := ih e.time h1.1 h1.2 (fun x hx => ht x (List.mem_cons_of_mem e hx)) j hj
      simp only [List.getElem_cons_succ]
      omega

/-! ## Helper lemmas: the line loop -/

theorem clamp_int_range (x : Int) : -2147483648 ≤ clamp_int x ∧ clamp_int x ≤ 2147483647 := by
  unfold clamp_int
  split_ifs <;> omega

theorem atoi_range (s : List Char) : -2147483648 ≤ atoi s ∧ atoi s ≤ 2147483647 := by
  unfold atoi
  simp only []
  split_ifs <;> exact clamp_int_range _

/-- The velocity of a note line: 100 without a third token, otherwise the
clamped value of the token. -/
theorem velocity_range (t : Option (List Char)) :
    0 ≤ (match t with
      | none => (100 : Int)
      | some tok3 => if (if atoi tok3 < 0 then 0 else atoi tok3) > 127 then 127
          else (if atoi tok3 < 0 then 0 else atoi tok3))
    ∧ (match t with
      | none => (100 : Int)
      | some tok3 => if (if atoi tok3 < 0 then 0 else atoi tok3) > 127 then 127
          else (if atoi tok3 < 0 then 0 else atoi tok3)) ≤ 127 := by
  cases t with
  | none => exact ⟨by decide, by decide⟩
  | some tok3 =>
    simp only []
    split_ifs <;> omega

/-- What a line that is accepted does to the state: nothing (blank line or
comment), or the effect of exactly one of the five kinds of line. -/
theorem process_line_cases (st st1 : State) (line : List Char)
    (h : process_line st line = .ok st1) :
    st1 = st
    ∨ (∃ nbpm : Int, 20 ≤ nbpm ∧ nbpm ≤ 400
        ∧ st1 = { st with
            bpm := nbpm
            events := add_event st.events (tempo_event st.curTick nbpm) })
    ∨ (∃ nppq : Int, 48 ≤ nppq ∧ nppq ≤ 9600 ∧ first_token line = some ['p', 'p', 'q']
        ∧ st1 = { st with ppq := nppq })
    ∨ (∃ ch : Int, 0 ≤ ch ∧ ch ≤ 15 ∧ st1 = { st with channel := ch })
    ∨ (∃ ms : Int, 0 ≤ ms ∧ ms ≤ 2147483647
        ∧ st1 = { st with
            curTick := (st.curTick + ms_to_ticks ms st.bpm st.ppq) % 4294967296 })
    ∨ (∃ midiNote ms velocity : Int, 0 ≤ midiNote ∧ midiNote ≤ 127 ∧ 0 < ms
        ∧ ms ≤ 2147483647 ∧ 0 ≤ velocity ∧ velocity ≤ 127
        ∧ st1 = { st with
            events := add_event
              (add_event st.events (note_on_event st.curTick st.channel midiNote velocity))
              (note_off_event ((st.curTick + ms_to_ticks ms st.bpm st.ppq) % 4294967296)
                st.channel midiNote)
            curTick := (st.curTick + ms_to_ticks ms st.bpm st.ppq) % 4294967296 }) := by
  unfold process_line at h
  simp only [] at h
  split at h
  · exact Or.inl (Except.ok.inj h).symm
  · split at h
    · exact Or.inl (Except.ok.inj h).symm
    · rename_i tok1 htok1
      split at h
      · split at h
        · cases h
        · rename_i tok2 _
          split at h
          · cases h
          · rename_i hr
            exact Or.inr (Or.inl ⟨atoi tok2, by omega, by omega, (Except.ok.inj h).symm⟩)
      · split at h
        · rename_i hppq
          split at h
          · cases h
          · rename_i tok2 _
            split at h
            · cases h
            · rename_i hr
              refine Or.inr (Or.inr (Or.inl
                ⟨atoi tok2, by omega, by omega, ?_, (Except.ok.inj h).symm⟩))
              unfold first_token
              rw [htok1, hppq]
        · split at h
          · split at h
            · cases h
            · rename_i tok2 _
              split at h
              · cases h
              · rename_i hr
                exact Or.inr (Or.inr (Or.inr (Or.inl
                  ⟨atoi tok2, by omega, by omega, (Except.ok.inj h).symm⟩)))
          · split at h
            · split at h
              · cases h
              · rename_i tok2 _
                split at h
                · cases h
                · rename_i hr
                  exact Or.inr (Or.inr (Or.inr (Or.inr (Or.inl
                    ⟨atoi tok2, by omega, (atoi_range tok2).2, (Except.ok.inj h).symm⟩))))
            · split at h
              · cases h
              · rename_i tok2 _
                split at h
                · cases h
                · rename_i midiNote hmidi
                  split at h
                  · cases h
                  · rename_i hr
                    have hm := note_to_midi_range _ _ hmidi
                    have hv := velocity_range
                      (strtok (strtok (strtok (ltrim (rtrim_inplace
                        (line.takeWhile (fun c => c ≠ Char.ofNat 0))))).2).2).1
                    exact Or.inr (Or.inr (Or.inr (Or.inr (Or.inr
                      ⟨midiNote, atoi tok2, _, hm.1, hm.2, by omega, (atoi_range tok2).2,
                        hv.1, hv.2, (Except.ok.inj h).symm⟩))))

theorem process_line_ppq (st st1 : State) (line : List Char)
    (h : process_line st line = .ok st1) (h0 : 48 ≤ st.ppq) (h1 : st.ppq ≤ 9600) :
    48 ≤ st1.ppq ∧ st1.ppq ≤ 9600
    ∧ (first_token line ≠ some ['p', 'p', 'q'] → st1.ppq = st.ppq) := by
  rcases process_line_cases st st1 line h with rfl | ⟨_, _, _, rfl⟩ | ⟨n, h2, h3, h4, rfl⟩
    | ⟨_, _, _, rfl⟩ | ⟨_, _, _, rfl⟩ | ⟨_, _, _, _, _, _, _, _, _, rfl⟩
  · exact ⟨h0, h1, fun _ => rfl⟩
  · exact ⟨h0, h1, fun _ => rfl⟩
  · exact ⟨h2, h3, fun hne => absurd h4 hne⟩
  · exact ⟨h0, h1, fun _ => rfl⟩
  · exact ⟨h0, h1, fun _ => rfl⟩
  · exact ⟨h0, h1, fun _ => rfl⟩

theorem parse_lines_ppq (ls : List (List Char)) (st st1 : State) (k : Nat)
    (h : parse_lines st k ls = .ok st1) (h0 : 48 ≤ st.ppq) (h1 : st.ppq ≤ 9600) :
    48 ≤ st1.ppq ∧ st1.ppq ≤ 9600
    ∧ ((∀ l ∈ ls, first_token l ≠ some ['p', 'p', 'q']) → st1.ppq = st.ppq) := by
  induction ls generalizing st k with
  | nil =>
    have e : st1 = st := (Except.ok.inj h).symm
    subst e
    exact ⟨h0, h1, fun _ => rfl⟩
  | cons l ls ih =>
    unfold parse_lines at h
    split at h
    · cases h
    · rename_i st2 hl
      have h2 := process_line_ppq st st2 l hl h0 h1
      have h3 := ih st2 (k + 1) h h2.1 h2.2.1
      refine ⟨h3.1, h3.2.1, fun hall => ?_⟩
      rw [h3.2.2 (fun x hx => hall x (List.mem_cons_of_mem l hx)),
        h2.2.2 (hall l (List.mem_cons_self l ls))]

/-! ## Helper lemmas: the file layout -/

theorem bb_put_be16_eq (b : List Nat) (v : Nat) : bb_put_be16 b v = b ++ be16_bytes v := by
  unfold bb_put_be16 bb_put be16_bytes
  rw [and_FF, and_FF, Nat.shiftRight_eq_div_pow]
  simp

theorem bb_put_be32_eq (b : List Nat) (v : Nat) : bb_put_be32 b v = b ++ be32_bytes v := by
  unfold bb_put_be32 bb_put be32_bytes
  rw [and_FF, and_FF, and_FF, and_FF, Nat.shiftRight_eq_div_pow, Nat.shiftRight_eq_div_pow,
    Nat.shiftRight_eq_div_pow]
  simp

theorem read_be16_bytes (v : Nat) (h : v < 65536) : read_be16 (be16_bytes v) = v := by
  unfold read_be16 be16_bytes
  simp only [List.getD_cons_zero, List.getD_cons_succ]
  omega

theorem read_be32_bytes (v : Nat) (h : v < 4294967296) : read_be32 (be32_bytes v) = v := by
  unfold read_be32 be32_bytes
  simp only [List.getD_cons_zero, List.getD_cons_succ]
  omega

theorem read_be32_bytes_lt (v : Nat) : read_be32 (be32_bytes v) < 4294967296 := by
  unfold read_be32 be32_bytes
  simp only [List.getD_cons_zero, List.getD_cons_succ]
  omega

theorem build_file_eq (ppq : Int) (track : List Nat) :
    build_file ppq track
      = tag_MThd ++ [0, 0, 0, 6] ++ [0, 0] ++ [0, 1] ++ be16_bytes (toU32 ppq) ++ tag_MTrk
          ++ be32_bytes (track.length % 4294967296) ++ track := by
  unfold build_file
  simp only [bb_put_be16_eq, bb_put_be32_eq, bb_put, List.take_length, List.nil_append]
  have e1 : List.take 4 tag_MThd = tag_MThd := rfl
  have e2 : List.take 4 tag_MTrk = tag_MTrk := rfl
  have e3 : be32_bytes 6 = [0, 0, 0, 6] := by decide
  have e4 : be16_bytes 0 = [0, 0] := by decide
  have e5 : be16_bytes 1 = [0, 1] := by decide
  rw [e1, e2, e3, e4, e5]

theorem main_eq (qsort : List Event → List Event) (input : List Char) (st : State)
    (hp : parse_score input = .ok st) :
    main qsort input = .ok (build_file st.ppq (build_track (qsort st.events))) := by
  unfold main
  rw [hp]

/-! ## Helper lemmas: a score of many short notes -/

theorem fgets_lines_short_note (rest : List Char) :
    fgets_lines [] (short_note_line ++ rest) = short_note_line :: fgets_lines [] rest := rfl

theorem fgets_lines_short_notes (n : Nat) :
    fgets_lines [] (short_notes_score n) = List.replicate n short_note_line := by
  induction n with
  | zero => rfl
  | succ n ih =>
    unfold short_notes_score at ih ⊢
    rw [List.replicate_succ, List.flatten_cons, fgets_lines_short_note, ih]

theorem process_short_note_line (evs : List Event) (c : Nat) :
    process_line { bpm := 120, ppq := 480, channel := 0, events := evs, curTick := c }
        short_note_line
      = .ok { bpm := 120, ppq := 480, channel := 0,
              events := add_event (add_event evs (note_on_event c 0 60 100))
                (note_off_event ((c + 1) % 4294967296) 0 60),
              curTick := (c + 1) % 4294967296 } := rfl

theorem parse_short_notes (n : Nat) (evs : List Event) (c k : Nat) :
    ∃ (evs1 : List Event) (c1 : Nat),
      parse_lines { bpm := 120, ppq := 480, channel := 0, events := evs, curTick := c } k
          (List.replicate n short_note_line)
        = .ok { bpm := 120, ppq := 480, channel := 0, events := evs1, curTick := c1 }
      ∧ evs1.length = evs.length + 2 * n
      ∧ ((∀ e ∈ evs, 3 ≤ (e.data.take e.len).length) →
          ∀ e ∈ evs1, 3 ≤ (e.data.take e.len).length) := by
  induction n generalizing evs c k with
  | zero => exact ⟨evs, c, rfl, rfl, fun h => h⟩
  | succ n ih =>
    obtain ⟨evs1, c1, h1, h2, h3⟩ :=
      ih (add_event (add_event evs (note_on_event c 0 60 100))
        (note_off_event ((c + 1) % 4294967296) 0 60)) ((c + 1) % 4294967296) (k + 1)
    refine ⟨evs1, c1, ?_, ?_, ?_⟩
    · rw [List.replicate_succ]
      unfold parse_lines
      rw [process_short_note_line]
      exact h1
    · rw [h2]
      simp only [add_event, List.length_append, List.length_singleton]
      omega
    · intro h
      apply h3
      intro e he
      simp only [add_event, List.mem_append, List.mem_singleton] at he
      rcases he with (he | rfl) | rfl
      · exact h e he
      · exact Nat.le_refl 3
      · exact Nat.le_refl 3

theorem track_events_length_ge (evs : List Event) (last : Nat)
    (h : ∀ e ∈ evs, 3 ≤ (e.data.take e.len).length) :
    4 * evs.length
      ≤ (List.zipWith (fun d e => bb_put_vlq [] d ++ e.data.take e.len)
          (track_deltas last evs) evs).flatten.length := by
  induction evs generalizing last with
  | nil => simp
  | cons e es ih =>
    have h1 := h e (List.mem_cons_self e es)
    have h2 := ih e.time (fun x hx => h x (List.mem_cons_of_mem e hx))
    simp only [track_deltas, List.zipWith_cons_cons, List.flatten_cons, List.length_append,
      List.length_cons, bb_put_vlq_length]
    omega

theorem build_track_length_ge (evs : List Event)
    (h : ∀ e ∈ evs, 3 ≤ (e.data.take e.len).length) :
    4 * evs.length + 4 ≤ (build_track evs).length := by
  rw [build_track_eq]
  unfold track_body
  have := track_events_length_ge evs 0 h
  simp only [List.length_append, List.length_cons, List.length_nil]
  omega

theorem atoi_digits_junk (ds junk : List Char) (acc : Nat)
    (h : ∀ c ∈ ds, isdigit c = true)
    (hj : junk = [] ∨ ∃ j js, junk = j :: js ∧ isdigit j = false) :
    atoi_digits (ds ++ junk) acc = ds.foldl (fun a c => a * 10 + (c.toNat - 48)) acc := by
  induction ds generalizing acc with
  | nil =>
    rcases hj with rfl | ⟨j, js, rfl, hjd⟩
    · rfl
    · simp [atoi_digits, hjd]
  | cons c cs ih =>
    have hc : isdigit c = true := h c (List.mem_cons_self c cs)
    simp only [List.cons_append, atoi_digits, hc, if_true, List.foldl_cons]
    exact ih _ (fun x hx => h x (List.mem_cons_of_mem c hx))

theorem atoi_digits_then_junk (d : Char) (ds junk : List Char)
    (h : ∀ c ∈ d :: ds, isdigit c = true)
    (hj : junk = [] ∨ ∃ j js, junk = j :: js ∧ isdigit j = false) :
    atoi (d :: ds ++ junk) = clamp_int (decimal_value (d :: ds)) := by
  obtain ⟨_, _, h3, h4, _, h6⟩ := isdigit_ne d (h d (List.mem_cons_self d ds))
  unfold atoi
  simp only [List.cons_append, List.dropWhile_cons, h6, Bool.false_eq_true, if_false, char_at,
    List.getD_cons_zero, h3, h4]
  rw [← List.cons_append, atoi_digits_junk _ _ _ h hj]
  rfl

theorem atoi_minus_digits_junk (ds junk : List Char) (h : ∀ c ∈ ds, isdigit c = true)
    (hj : junk = [] ∨ ∃ j js, junk = j :: js ∧ isdigit j = false) :
    atoi ('-' :: (ds ++ junk)) = clamp_int (-(decimal_value ds : Int)) := by
  unfold atoi
  have hs : isspace '-' = false := by decide
  simp only [List.dropWhile_cons, hs, Bool.false_eq_true, if_false, char_at,
    List.getD_cons_zero, if_true, List.drop_succ_cons, List.drop_zero]
  rw [atoi_digits_junk _ _ _ h hj]
  rfl

/-- The result of `note_to_midi` on a token made of a note letter, an optional
accidental, an optional `-`, at least one digit and then text that does not
start with a digit. -/
theorem note_to_midi_shape (l : Char) (base : Int) (acc : List Char) (accv : Int)
    (neg : Bool) (d : Char) (ds junk : List Char)
    (hl : (l, base) ∈ note_letter_table) (hacc : (acc, accv) ∈ accidental_table)
    (hdig : ∀ c ∈ d :: ds, isdigit c = true)
    (hj : junk = [] ∨ ∃ j js, junk = j :: js ∧ isdigit j = false) :
    note_to_midi (l :: (acc ++ (if neg then ['-'] else []) ++ (d :: ds) ++ junk))
      = if wrap32 (wrap32 (wrap32 (clamp_int
              (if neg then -(decimal_value (d :: ds) : Int) else (decimal_value (d :: ds) : Int))
              + 1) * 12) + (base + accv)) < 0
          ∨ 127 < wrap32 (wrap32 (wrap32 (clamp_int
              (if neg then -(decimal_value (d :: ds) : Int) else (decimal_value (d :: ds) : Int))
              + 1) * 12) + (base + accv))
        then none
        else some (wrap32 (wrap32 (wrap32 (clamp_int
              (if neg then -(decimal_value (d :: ds) : Int) else (decimal_value (d :: ds) : Int))
              + 1) * 12) + (base + accv))) := by
  obtain ⟨hb, hl0, _, _, _⟩ := note_letter_base l base hl
  obtain ⟨hd1, hd2, hd3, hd4, hd5, hd6⟩ := isdigit_ne d (hdig d (List.mem_cons_self d ds))
  have hdd : isdigit d = true := hdig d (List.mem_cons_self d ds)
  have hpos : atoi (d :: (ds ++ junk)) = clamp_int (decimal_value (d :: ds)) :=
    atoi_digits_then_junk d ds junk hdig hj
  have hneg : atoi ('-' :: d :: (ds ++ junk)) = clamp_int (-(decimal_value (d :: ds) : Int)) :=
    atoi_minus_digits_junk (d :: ds) junk hdig hj
  have hm : '-' ≠ Char.ofNat 0 := by decide
  have e1 : ('-' : Char) ≠ '#' := by decide
  have e2 : ('-' : Char) ≠ 'b' := by decide
  have e3 : ('b' : Char) ≠ '#' := by decide
  simp only [accidental_table, List.mem_cons, Prod.mk.injEq, List.mem_singleton,
    List.not_mem_nil, or_false] at hacc
  rcases hacc with ⟨rfl, rfl⟩ | ⟨rfl, rfl⟩ | ⟨rfl, rfl⟩ <;> cases neg
  · simp only [note_to_midi, char_at, List.getD_cons_zero, hl0, if_false, hb, List.nil_append,
      Bool.false_eq_true, List.cons_append, List.getD_cons_succ, hd1, hd2, hd5, hdd, false_or,
      and_false, List.drop_succ_cons, List.drop_zero, hpos, ne_eq, not_true_eq_false,
      add_zero]
    try simp
  · simp only [note_to_midi, char_at, List.getD_cons_zero, hl0, if_false, hb, List.nil_append,
      if_true, List.cons_append, List.getD_cons_succ, e1, e2, hm, false_or, and_false, ne_eq,
      not_true_eq_false, false_and, List.drop_succ_cons, List.drop_zero, hneg, add_zero]
    try simp
  · simp only [note_to_midi, char_at, List.getD_cons_zero, hl0, if_false, hb, List.nil_append,
      Bool.false_eq_true, List.cons_append, List.getD_cons_succ, if_true, hd5, hdd, false_or,
      and_false, List.drop_succ_cons, List.drop_zero, hpos, ne_eq, not_true_eq_false]
    try simp
  · simp only [note_to_midi, char_at, List.getD_cons_zero, hl0, if_false, hb, List.nil_append,
      if_true, List.cons_append, List.getD_cons_succ, hm, false_or, and_false, ne_eq,
      not_true_eq_false, false_and, List.drop_succ_cons, List.drop_zero, hneg]
    try simp
  · simp only [note_to_midi, char_at, List.getD_cons_zero, hl0, if_false, hb, List.nil_append,
      Bool.false_eq_true, List.cons_append, List.getD_cons_succ, e3, if_true, hd5, hdd,
      false_or, and_false, List.drop_succ_cons, List.drop_zero, hpos, ne_eq,
      not_true_eq_false, sub_eq_add_neg]
    try simp
  · simp only [note_to_midi, char_at, List.getD_cons_zero, hl0, if_false, hb, List.nil_append,
      if_true, List.cons_append, List.getD_cons_succ, e3, hm, false_or, and_false, ne_eq,
      not_true_eq_false, false_and, List.drop_succ_cons, List.drop_zero, hneg,
      sub_eq_add_neg]
    try simp

/-- A token of that shape whose pitch lies outside 0..127, the arithmetic
staying inside the range of `int`, is rejected. -/
theorem note_to_midi_rejects_pitch (l : Char) (base : Int) (acc : List Char) (accv : Int)
    (neg : Bool) (digits junk : List Char) (p : Int)
    (hl : (l, base) ∈ note_letter_table) (hacc : (acc, accv) ∈ accidental_table)
    (hne : digits ≠ []) (hdig : ∀ c ∈ digits, isdigit c = true)
    (hj : junk = [] ∨ ∃ j js, junk = j :: js ∧ isdigit j = false)
    (hp : p = ((if neg then -(decimal_value digits : Int) else (decimal_value digits : Int)) + 1)
      * 12 + base + accv)
    (hlo : -2147483636 ≤ p) (hhi : p ≤ 2147483646) (hout : p < 0 ∨ 127 < p) :
    note_to_midi (l :: (acc ++ (if neg then ['-'] else []) ++ digits ++ junk)) = none := by
  obtain ⟨d, ds, rfl⟩ := List.exists_cons_of_ne_nil hne
  obtain ⟨_, _, hb0, hb1, _⟩ := note_letter_base l base hl
  have ha : -1 ≤ accv ∧ accv ≤ 1 := by
    simp only [accidental_table, List.mem_cons, Prod.mk.injEq, List.mem_singleton,
      List.not_mem_nil, or_false] at hacc
    rcases hacc with ⟨_, rfl⟩ | ⟨_, rfl⟩ | ⟨_, rfl⟩ <;> omega
  rw [note_to_midi_shape l base acc accv neg d ds junk hl hacc hdig hj]
  generalize (if neg then -(decimal_value (d :: ds) : Int) else (decimal_value (d :: ds) : Int))
    = o at hp ⊢
  rw [clamp_int_of_range o (by omega) (by omega), wrap32_of_range (o + 1) (by omega) (by omega),
    wrap32_of_range ((o + 1) * 12) (by omega) (by omega),
    wrap32_of_range ((o + 1) * 12 + (base + accv)) (by omega) (by omega)]
  rw [if_pos (by omega)]

/-! ## Theorems: ms_to_ticks -/

/-- C1: for 0 ≤ ms ≤ 2^31-1, bpm in 20..400 and ppq in 48..9600 the 64-bit
intermediate never overflows and `ms_to_ticks` is the round-half-up quotient
`(ms*bpm*ppq + 30000) / 60000` over unbounded integers, clamped to
`[0, 2^31-1]`; in particular `ms_to_ticks 1 120 480 = 1`. -/
theorem ms_to_ticks_round_half_up_clamped (ms bpm ppq : Int)
    (hms0 : 0 ≤ ms) (hms1 : ms ≤ 2147483647)
    (hb0 : 20 ≤ bpm) (hb1 : bpm ≤ 400) (hp0 : 48 ≤ ppq) (hp1 : ppq ≤ 9600) :
    (ms_to_ticks ms bpm ppq : Int) = min ((ms * bpm * ppq + 30000) / 60000) (2 ^ 31 - 1)
    ∧ (0 : Int) ≤ ms_to_ticks ms bpm ppq
    ∧ (ms_to_ticks ms bpm ppq : Int) ≤ 2 ^ 31 - 1
    ∧ ms_to_ticks 1 120 480 = 1 := by
  have h := ms_to_ticks_eq ms bpm ppq hms0 hms1 hb0 hb1 hp0 hp1
  have h3 : 0 ≤ ms * bpm * ppq := by positivity
  have hq0 : 0 ≤ (ms * bpm * ppq + 30000) / 60000 := by
    apply Int.ediv_nonneg <;> omega
  have hm : (0 : Int) ≤ min ((ms * bpm * ppq + 30000) / 60000) 2147483647 :=
    le_min hq0 (by omega)
  have e : (2 : Int) ^ 31 - 1 = 2147483647 := by norm_num
  rw [e, h, Int.toNat_of_nonneg hm]
  refine ⟨rfl, hm, min_le_right _ _, ?_⟩
  decide

/-- Witness for C1 at ms = 200, bpm = 120, ppq = 480 (192 ticks). -/
theorem ms_to_ticks_round_half_up_clamped_witness :
    (ms_to_ticks 200 120 480 : Int) = min ((200 * 120 * 480 + 30000) / 60000) (2 ^ 31 - 1)
    ∧ (0 : Int) ≤ ms_to_ticks 200 120 480
    ∧ (ms_to_ticks 200 120 480 : Int) ≤ 2 ^ 31 - 1
    ∧ ms_to_ticks 1 120 480 = 1 :=
  ms_to_ticks_round_half_up_clamped 200 120 480 (by decide) (by decide) (by decide)
    (by decide) (by decide) (by decide)

/-- C2: for fixed bpm in 20..400 and ppq in 48..9600, `ms_to_ticks` is
monotonically non-decreasing in ms over the non-negative `int` values, and
`ms_to_ticks 0 bpm ppq = 0`. -/
theorem ms_to_ticks_monotone (ms1 ms2 bpm ppq : Int)
    (h0 : 0 ≤ ms1) (h12 : ms1 ≤ ms2) (h2 : ms2 ≤ 2147483647)
    (hb0 : 20 ≤ bpm) (hb1 : bpm ≤ 400) (hp0 : 48 ≤ ppq) (hp1 : ppq ≤ 9600) :
    ms_to_ticks ms1 bpm ppq ≤ ms_to_ticks ms2 bpm ppq ∧ ms_to_ticks 0 bpm ppq = 0 := by
  rw [ms_to_ticks_eq ms1 bpm ppq h0 (by omega) hb0 hb1 hp0 hp1,
    ms_to_ticks_eq ms2 bpm ppq (by omega) h2 hb0 hb1 hp0 hp1,
    ms_to_ticks_eq 0 bpm ppq (by omega) (by omega) hb0 hb1 hp0 hp1]
  constructor
  · apply Int.toNat_le_toNat
    apply min_le_min _ le_rfl
    apply Int.ediv_le_ediv (by omega)
    have hb : ms1 * bpm ≤ ms2 * bpm := mul_le_mul_of_nonneg_right h12 (by omega)
    have hp : ms1 * bpm * ppq ≤ ms2 * bpm * ppq := mul_le_mul_of_nonneg_right hb (by omega)
    omega
  · simp

/-- Witness for C2 at ms1 = 1, ms2 = 200, bpm = 120, ppq = 480. -/
theorem ms_to_ticks_monotone_witness :
    ms_to_ticks 1 120 480 ≤ ms_to_ticks 200 120 480 ∧ ms_to_ticks 0 120 480 = 0 :=
  ms_to_ticks_monotone 1 200 120 480 (by decide) (by decide) (by decide) (by decide)
    (by decide) (by decide) (by decide)

/-! ## Theorems: note_to_midi -/

/-- C3: for every token made of a note letter A-G in either case (base C=0, D=2,
E=4, F=5, G=7, A=9, B=11), an optional accidental (`#` adds 1, lowercase `b`
subtracts 1) and a decimal octave `o` optionally preceded by `-`, such that
`p = (o + 1) * 12 + base + accidental` lies in 0..127, `note_to_midi` succeeds and
returns exactly `p`; `C4` gives 60, `A4` 69, `C-1` 0 and `G9` 127. -/
theorem note_to_midi_resolves (l : Char) (base : Int) (acc : List Char) (accv : Int)
    (neg : Bool) (digits : List Char) (p : Int)
    (hl : (l, base) ∈ note_letter_table) (hacc : (acc, accv) ∈ accidental_table)
    (hne : digits ≠ []) (hdig : ∀ c ∈ digits, isdigit c = true)
    (hp : p = ((if neg then -(decimal_value digits : Int) else (decimal_value digits : Int)) + 1)
      * 12 + base + accv)
    (hp0 : 0 ≤ p) (hp1 : p ≤ 127) :
    note_to_midi (l :: (acc ++ (if neg then ['-'] else []) ++ digits)) = some p
    ∧ note_to_midi ['C', '4'] = some 60 ∧ note_to_midi ['A', '4'] = some 69
    ∧ note_to_midi ['C', '-', '1'] = some 0 ∧ note_to_midi ['G', '9'] = some 127 := by
  refine ⟨?_, by decide, by decide, by decide, by decide⟩
  obtain ⟨hb, hl0, hb0, hb1, _⟩ := note_letter_base l base hl
  obtain ⟨d, ds, rfl⟩ := List.exists_cons_of_ne_nil hne
  obtain ⟨hd1, hd2, hd3, hd4, hd5, hd6⟩ := isdigit_ne d (hdig d (List.mem_cons_self d ds))
  have hdd : isdigit d = true := hdig d (List.mem_cons_self d ds)
  have hdigs : ∀ c ∈ ds, isdigit c = true := fun c hc => hdig c (List.mem_cons_of_mem d hc)
  simp only [accidental_table, List.mem_cons, Prod.mk.injEq, List.mem_singleton,
    List.not_mem_nil, or_false] at hacc
  have hm : '-' ≠ Char.ofNat 0 := by decide
  have key : ∀ o : Int, p = (o + 1) * 12 + base + accv → -1 ≤ accv → accv ≤ 1 →
      (if wrap32 (wrap32 (wrap32 (clamp_int o + 1) * 12) + (base + accv)) < 0
          ∨ 127 < wrap32 (wrap32 (wrap32 (clamp_int o + 1) * 12) + (base + accv))
        then none
        else some (wrap32 (wrap32 (wrap32 (clamp_int o + 1) * 12) + (base + accv))))
      = some p := by
    intro o ho ha0 ha1
    rw [clamp_int_of_range o (by omega) (by omega), wrap32_of_range (o + 1) (by omega) (by omega),
      wrap32_of_range ((o + 1) * 12) (by omega) (by omega),
      wrap32_of_range ((o + 1) * 12 + (base + accv)) (by omega) (by omega)]
    rw [if_neg (by omega)]
    congr 1
    omega
  rcases hacc with ⟨rfl, rfl⟩ | ⟨rfl, rfl⟩ | ⟨rfl, rfl⟩ <;> cases neg
  · have := key (decimal_value (d :: ds)) (by simpa using hp) (by omega) (by omega)
    simp only [note_to_midi, char_at, List.getD_cons_zero, hl0, if_false, hb, List.nil_append,
      Bool.false_eq_true, List.getD_cons_succ, hd1, hd2, hd5, hdd, false_or, and_false,
      not_false_eq_true, List.drop_succ_cons, List.drop_zero, atoi_of_digits d ds hdig, ne_eq,
      not_true_eq_false]
    simpa using this
  · have := key (-(decimal_value (d :: ds) : Int)) (by simpa using hp) (by omega) (by omega)
    simp only [note_to_midi, char_at, List.getD_cons_zero, hl0, if_false, hb, List.nil_append,
      if_true, List.cons_append, List.getD_cons_succ, hm, false_or, and_false, ne_eq,
      not_true_eq_false, false_and, List.drop_succ_cons, List.drop_zero,
      atoi_of_minus_digits (d :: ds) hdig]
    have e1 : ('-' : Char) ≠ '#' := by decide
    have e2 : ('-' : Char) ≠ 'b' := by decide
    simp only [e1, e2, if_false, hm, false_or, ne_eq, not_true_eq_false, false_and,
      List.drop_succ_cons, List.drop_zero, atoi_of_minus_digits (d :: ds) hdig]
    simpa using this
  · have := key (decimal_value (d :: ds)) (by simpa using hp) (by omega) (by omega)
    simp only [note_to_midi, char_at, List.getD_cons_zero, hl0, if_false, hb, List.nil_append,
      Bool.false_eq_true, List.cons_append, List.getD_cons_succ, if_true, hd5, hdd, false_or,
      and_false, List.drop_succ_cons, List.drop_zero, atoi_of_digits d ds hdig, List.append_nil]
    simpa using this
  · have := key (-(decimal_value (d :: ds) : Int)) (by simpa using hp) (by omega) (by omega)
    simp only [note_to_midi, char_at, List.getD_cons_zero, hl0, if_false, hb, List.nil_append,
      if_true, List.cons_append, List.getD_cons_succ, hm, false_or, and_false, ne_eq,
      not_true_eq_false, false_and, List.drop_succ_cons, List.drop_zero,
      atoi_of_minus_digits (d :: ds) hdig]
    simpa using this
  · have := key (decimal_value (d :: ds)) (by simpa using hp) (by omega) (by omega)
    have e1 : ('b' : Char) ≠ '#' := by decide
    simp only [note_to_midi, char_at, List.getD_cons_zero, hl0, if_false, hb, List.nil_append,
      Bool.false_eq_true, List.cons_append, List.getD_cons_succ, e1, if_true, hd5, hdd, false_or,
      and_false, List.drop_succ_cons, List.drop_zero, atoi_of_digits d ds hdig, List.append_nil]
    simpa [sub_eq_add_neg] using this
  · have := key (-(decimal_value (d :: ds) : Int)) (by simpa using hp) (by omega) (by omega)
    have e1 : ('b' : Char) ≠ '#' := by decide
    simp only [note_to_midi, char_at, List.getD_cons_zero, hl0, if_false, hb, List.nil_append,
      if_true, List.cons_append, List.getD_cons_succ, e1, hm, false_or, and_false, ne_eq,
      not_true_eq_false, false_and, List.drop_succ_cons, List.drop_zero,
      atoi_of_minus_digits (d :: ds) hdig]
    simpa [sub_eq_add_neg] using this

/-- Witness for C3: the token `F#3` resolves to 54. -/
theorem note_to_midi_resolves_witness :
    note_to_midi ['F', '#', '3'] = some 54
    ∧ note_to_midi ['C', '4'] = some 60 ∧ note_to_midi ['A', '4'] = some 69
    ∧ note_to_midi ['C', '-', '1'] = some 0 ∧ note_to_midi ['G', '9'] = some 127 :=
  note_to_midi_resolves 'F' 5 ['#'] 1 false ['3'] 54 (by decide) (by decide) (by decide)
    (by decide) (by decide) (by decide) (by decide)

/-- C4 as stated fails: `C4x` is accepted with pitch 60 although it does not
match `[A-Ga-g][#b]?-?\d+` in full (`atoi` ignores what follows the digits). -/
theorem note_to_midi_full_match_fails :
    ¬ (∀ (token : List Char) (p : Int), note_to_midi token = some p →
        matches_note_grammar token = true ∧ 0 ≤ p ∧ p ≤ 127) := by
  intro h
  have h1 := (h ['C', '4', 'x'] 60 (by decide)).1
  revert h1
  decide

/-- On success, outside the case of a `-` that no digit follows, a leading part
of the token matches the note grammar. -/
theorem note_to_midi_some_head (token : List Char) (p : Int)
    (h : note_to_midi token = some p) (hs : bare_minus_octave token = false) :
    matches_note_grammar_head token = true := by
  cases token with
  | nil => simp [note_to_midi, char_at] at h
  | cons c0 rest =>
    unfold note_to_midi at h
    simp only [char_at, List.getD_cons_zero] at h
    by_cases h0 : c0 = Char.ofNat 0
    · rw [if_pos h0] at h; cases h
    rw [if_neg h0] at h
    have hlet : is_note_letter c0 = true := by
      cases hc : is_note_letter c0 with
      | true => rfl
      | false =>
        have hn := note_base_none_of_not_letter c0 hc
        simp only [hn] at h
        cases h
    cases hb : note_base (toupper c0) with
    | none => simp only [hb] at h; cases h
    | some base =>
      simp only [hb] at h
      simp only [matches_note_grammar_head, hlet, Bool.true_and]
      simp only [bare_minus_octave] at hs
      cases rest with
      | nil => simp at h
      | cons c1 r1 =>
        simp only [List.getD_cons_succ, List.getD_cons_zero] at h
        rw [strip_accidental_cons] at hs ⊢
        by_cases h1 : c1 = '#' ∨ c1 = 'b'
        · have hbi : (if c1 = '#' then ((base + 1, 2) : Int × Nat)
              else if c1 = 'b' then (base - 1, 2) else (base, 1)).2 = 2 := by
            rcases h1 with h1 | h1
            · simp [h1]
            · split_ifs <;> rfl
          simp only [h1, if_true] at hs ⊢
          rw [hbi] at h
          cases r1 with
          | nil => simp at h
          | cons c2 r2 =>
            simp only [List.getD_cons_succ, List.getD_cons_zero] at h
            rw [strip_minus_cons]
            by_cases h2 : c2 = '-'
            · subst h2
              simp only [if_true]
              cases r2 with
              | nil => simp at hs
              | cons c3 r3 => simpa using hs
            · simp only [h2, if_false]
              by_cases h3 : c2 = Char.ofNat 0 ∨ c2 ≠ '-' ∧ isdigit c2 = false
              · rw [if_pos h3] at h; cases h
              · simp only [not_or, not_and, ne_eq, h2, not_false_eq_true, forall_const] at h3
                simpa using h3.2
        · have hbi : (if c1 = '#' then ((base + 1, 2) : Int × Nat)
              else if c1 = 'b' then (base - 1, 2) else (base, 1)).2 = 1 := by
            simp only [not_or] at h1
            simp [h1.1, h1.2]
          simp only [h1, if_false] at hs ⊢
          rw [hbi] at h
          simp only [List.getD_cons_succ, List.getD_cons_zero] at h
          rw [strip_minus_cons]
          by_cases h2 : c1 = '-'
          · subst h2
            simp only [if_true]
            cases r1 with
            | nil => simp at hs
            | cons c3 r3 => simpa using hs
          · simp only [h2, if_false]
            by_cases h3 : c1 = Char.ofNat 0 ∨ c1 ≠ '-' ∧ isdigit c1 = false
            · rw [if_pos h3] at h; cases h
            · simp only [not_or, not_and, ne_eq, h2, not_false_eq_true, forall_const] at h3
              simpa using h3.2

theorem note_to_midi_not_letter (tok : List Char)
    (h : is_note_letter (char_at tok 0) = false) : note_to_midi tok = none := by
  unfold note_to_midi
  by_cases h0 : char_at tok 0 = Char.ofNat 0
  · rw [if_pos h0]
  · rw [if_neg h0, note_base_none_of_not_letter _ h]

theorem note_to_midi_no_octave (c : Char) (cs : List Char)
    (h1 : char_at (strip_accidental cs) 0 ≠ '-')
    (h2 : isdigit (char_at (strip_accidental cs) 0) = false) :
    note_to_midi (c :: cs) = none := by
  cases hn : note_to_midi (c :: cs) with
  | none => rfl
  | some q =>
    have hbare : bare_minus_octave (c :: cs) = false := by
      simp only [bare_minus_octave]
      cases hr : strip_accidental cs with
      | nil => rfl
      | cons x xs =>
        rw [hr] at h1
        simp only [char_at, List.getD_cons_zero] at h1
        split
        · rename_i heq
          exact absurd (List.cons.inj heq).1 h1
        · rename_i heq
          exact absurd (List.cons.inj heq).1 h1
        · rfl
    have hm := note_to_midi_some_head (c :: cs) q hn hbare
    simp only [matches_note_grammar_head, Bool.and_eq_true] at hm
    have hm2 := hm.2
    cases hr : strip_accidental cs with
    | nil =>
      rw [hr] at hm2
      simp [strip_minus] at hm2
    | cons x xs =>
      rw [hr] at h1 h2 hm2
      simp only [char_at, List.getD_cons_zero] at h1 h2
      rw [strip_minus_cons, if_neg h1] at hm2
      simp only [h2] at hm2
      cases hm2

/-- C4 amended: if `note_to_midi` succeeds on a token whose octave part is not a
`-` without a digit after it, then a leading part of the token matches
`[A-Ga-g][#b]?-?\d+` (a note letter, an optional accidental, an optional `-`, at
least one digit; what follows the digits is ignored) and the returned pitch is in
0..127. Every token whose first character is not a note letter is rejected
(`H4`, `Z4`), every token whose octave part starts with neither `-` nor a digit
is rejected (`C`, `C#`, `Cx`), and every token made of a note letter, an optional
accidental, an optional `-`, digits and then text not starting with a digit is
rejected when its pitch `(o + 1) * 12 + base + accidental` lies outside 0..127
and inside -2147483636..2147483646, where the `int` arithmetic of the code does
not overflow (`G#9`, pitch 128). -/
theorem note_to_midi_accepts_only (token : List Char) (p : Int)
    (h : note_to_midi token = some p) (hs : bare_minus_octave token = false) :
    matches_note_grammar_head token = true ∧ 0 ≤ p ∧ p ≤ 127
    ∧ (∀ tok : List Char, is_note_letter (char_at tok 0) = false → note_to_midi tok = none)
    ∧ (∀ (c : Char) (cs : List Char), char_at (strip_accidental cs) 0 ≠ '-' →
        isdigit (char_at (strip_accidental cs) 0) = false → note_to_midi (c :: cs) = none)
    ∧ (∀ (l : Char) (base : Int) (acc : List Char) (accv : Int) (neg : Bool)
        (digits junk : List Char) (q : Int),
        (l, base) ∈ note_letter_table → (acc, accv) ∈ accidental_table →
        digits ≠ [] → (∀ c ∈ digits, isdigit c = true) →
        (junk = [] ∨ ∃ j js, junk = j :: js ∧ isdigit j = false) →
        q = ((if neg then -(decimal_value digits : Int) else (decimal_value digits : Int)) + 1)
          * 12 + base + accv →
        -2147483636 ≤ q → q ≤ 2147483646 → (q < 0 ∨ 127 < q) →
        note_to_midi (l :: (acc ++ (if neg then ['-'] else []) ++ digits ++ junk)) = none)
    ∧ note_to_midi ['H', '4'] = none ∧ note_to_midi ['Z', '4'] = none
    ∧ note_to_midi ['C'] = none ∧ note_to_midi ['C', '#'] = none
    ∧ note_to_midi ['C', 'x'] = none ∧ note_to_midi ['G', '#', '9'] = none := by
  refine ⟨note_to_midi_some_head token p h hs, (note_to_midi_range token p h).1,
    (note_to_midi_range token p h).2, note_to_midi_not_letter, note_to_midi_no_octave, ?_,
    by decide, by decide, by decide, by decide, by decide, by decide⟩
  intro l base acc accv neg digits junk q hl hacc hne hdig hj hq hlo hhi hout
  exact note_to_midi_rejects_pitch l base acc accv neg digits junk q hl hacc hne hdig hj hq hlo
    hhi hout

/-- Witness for C4 amended: `Bb2x` is accepted with pitch 46 and its leading
part `Bb2` matches the grammar; `C10x` (pitch 132) is rejected. -/
theorem note_to_midi_accepts_only_witness :
    matches_note_grammar_head ['B', 'b', '2', 'x'] = true ∧ (0 : Int) ≤ 46 ∧ (46 : Int) ≤ 127
    ∧ note_to_midi ('C' :: ([] ++ (if false then ['-'] else []) ++ ['1', '0'] ++ ['x'])) = none :=
  have hw := note_to_midi_accepts_only ['B', 'b', '2', 'x'] 46 (by decide) (by decide)
  ⟨hw.1, hw.2.1, hw.2.2.1,
    hw.2.2.2.2.2.1 'C' 0 [] 0 false ['1', '0'] ['x'] 132 (by decide) (by decide) (by decide)
      (by decide) (Or.inr ⟨'x', [], rfl, by decide⟩) (by decide) (by decide) (by decide)
      (by decide)⟩

/-! ## Theorems: variable-length quantities -/

/-- C5: VLQ round trip. For every unsigned 32-bit value `v`, decoding the bytes
that `bb_put_vlq` appends for `v` (7-bit groups most significant first until a
byte with the high bit clear) consumes exactly those bytes and returns `v`;
hence the encoding is injective on the 32-bit values. -/
theorem vlq_round_trip (v : Nat) (hv : v < 2 ^ 32) :
    (∀ rest : List Nat, vlq_decode (bb_put_vlq [] v ++ rest) = some (v, rest))
    ∧ (∀ w : Nat, w < 2 ^ 32 → bb_put_vlq [] v = bb_put_vlq [] w → v = w) := by
  have _ := hv
  refine ⟨fun rest => vlq_decode_bb_put_vlq v rest, ?_⟩
  intro w _ h
  have h1 := vlq_decode_bb_put_vlq v []
  have h2 := vlq_decode_bb_put_vlq w []
  rw [h, h2] at h1
  simp only [Option.some.injEq, Prod.mk.injEq, and_true] at h1
  exact h1.symm

/-- Witness for C5 at `v = 2^32 - 1`, encoded as `8F FF FF FF 7F`. -/
theorem vlq_round_trip_witness :
    vlq_decode (bb_put_vlq [] 4294967295 ++ [0x90, 60]) = some (4294967295, [0x90, 60])
    ∧ (bb_put_vlq [] 4294967295 = bb_put_vlq [] 268435455 → 4294967295 = 268435455) :=
  ⟨(vlq_round_trip 4294967295 (by norm_num)).1 [0x90, 60],
    (vlq_round_trip 4294967295 (by norm_num)).2 268435455 (by norm_num)⟩

/-- C6: for every unsigned 32-bit value `v`, `bb_put_vlq` appends between 1 and 5
bytes (as many as were written to the 5-byte scratch array), the 7-bit groups of
`v` most significant first, every byte except the last with its high bit set and
the last with its high bit clear; 0 encodes as `00`, 127 as `7F`, 128 as `81 00`. -/
theorem bb_put_vlq_groups (v : Nat) (hv : v < 2 ^ 32) (b : List Nat) :
    bb_put_vlq b v = b ++ bb_put_vlq [] v
    ∧ (vlq_tmp v).length = (bb_put_vlq [] v).length
    ∧ 1 ≤ (bb_put_vlq [] v).length ∧ (bb_put_vlq [] v).length ≤ 5
    ∧ v < 128 ^ (bb_put_vlq [] v).length
    ∧ (∀ i : Nat, i < (bb_put_vlq [] v).length →
        (bb_put_vlq [] v)[i]?
          = some (v / 128 ^ ((bb_put_vlq [] v).length - 1 - i) % 128
              + (if i + 1 < (bb_put_vlq [] v).length then 128 else 0)))
    ∧ bb_put_vlq [] 0 = [0x00] ∧ bb_put_vlq [] 127 = [0x7F]
    ∧ bb_put_vlq [] 128 = [0x81, 0x00] := by
  have hlen := vlq_loop_length 4 v (by
    calc v < 2 ^ 32 := hv
      _ ≤ 128 ^ (4 + 1) := by norm_num)
  refine ⟨bb_put_vlq_append b v, ?_, ?_, ?_, ?_, fun i hi => bb_put_vlq_get v i hi, ?_, ?_, ?_⟩
  · rw [bb_put_vlq_length, vlq_tmp_eq]
    rfl
  · rw [bb_put_vlq_length]; omega
  · rw [bb_put_vlq_length]; omega
  · rw [bb_put_vlq_length, Nat.pow_succ]
    have := vlq_loop_covers v
    omega
  · rw [bb_put_vlq_eq, vlq_loop_small 0 (by decide)]
    rfl
  · rw [bb_put_vlq_eq, vlq_loop_small 127 (by decide)]
    rfl
  · rw [bb_put_vlq_eq, vlq_loop_big 128 (by decide), vlq_loop_small (128 / 128) (by decide)]
    rfl

/-- Witness for C6 at `v = 2^32 - 1` appended to the buffer `[9]`. -/
theorem bb_put_vlq_groups_witness :
    bb_put_vlq [9] 4294967295 = [9] ++ bb_put_vlq [] 4294967295
    ∧ (vlq_tmp 4294967295).length = (bb_put_vlq [] 4294967295).length
    ∧ 1 ≤ (bb_put_vlq [] 4294967295).length ∧ (bb_put_vlq [] 4294967295).length ≤ 5
    ∧ 4294967295 < 128 ^ (bb_put_vlq [] 4294967295).length
    ∧ (∀ i : Nat, i < (bb_put_vlq [] 4294967295).length →
        (bb_put_vlq [] 4294967295)[i]?
          = some (4294967295 / 128 ^ ((bb_put_vlq [] 4294967295).length - 1 - i) % 128
              + (if i + 1 < (bb_put_vlq [] 4294967295).length then 128 else 0)))
    ∧ bb_put_vlq [] 0 = [0x00] ∧ bb_put_vlq [] 127 = [0x7F]
    ∧ bb_put_vlq [] 128 = [0x81, 0x00] :=
  bb_put_vlq_groups 4294967295 (by norm_num) [9]

/-! ## Theorems: event order and track body -/

/-- C7, evaluated on the code: for the score `tempo 100`, `tempo 200` the three
emitted tempo events share tick 0 and priority 0; both their emission order and
its reverse are results that `qsort` with `cmp_event` may return, and the two
encode to different track bytes. -/
theorem tie_order_left_to_qsort :
    parse_score two_tempo_score
      = .ok { bpm := 200, ppq := 480, channel := 0, events := two_tempo_events, curTick := 0 }
    ∧ is_qsort_result two_tempo_events two_tempo_events
    ∧ is_qsort_result two_tempo_events two_tempo_events.reverse
    ∧ build_track two_tempo_events
        = [0, 255, 81, 3, 7, 161, 32, 0, 255, 81, 3, 9, 39, 192, 0, 255, 81, 3, 4, 147, 224,
           0, 255, 47, 0]
    ∧ build_track two_tempo_events.reverse
        = [0, 255, 81, 3, 4, 147, 224, 0, 255, 81, 3, 9, 39, 192, 0, 255, 81, 3, 7, 161, 32,
           0, 255, 47, 0]
    ∧ build_track two_tempo_events ≠ build_track two_tempo_events.reverse := by
  have hev : two_tempo_events =
      [⟨0, 0, [255, 81, 3, 7, 161, 32, 0, 0], 6⟩, ⟨0, 0, [255, 81, 3, 9, 39, 192, 0, 0], 6⟩,
       ⟨0, 0, [255, 81, 3, 4, 147, 224, 0, 0], 6⟩] := by decide
  have h1 : build_track two_tempo_events
      = [0, 255, 81, 3, 7, 161, 32, 0, 255, 81, 3, 9, 39, 192, 0, 255, 81, 3, 4, 147, 224,
         0, 255, 47, 0] := by
    rw [build_track_eq, hev]
    simp [track_body, track_deltas, u32_sub, bb_put_vlq_small]
  have h2 : build_track two_tempo_events.reverse
      = [0, 255, 81, 3, 4, 147, 224, 0, 255, 81, 3, 9, 39, 192, 0, 255, 81, 3, 7, 161, 32,
         0, 255, 47, 0] := by
    rw [build_track_eq, hev]
    simp [track_body, track_deltas, u32_sub, bb_put_vlq_small]
  refine ⟨rfl, ⟨List.Perm.refl _, by decide⟩, ⟨List.reverse_perm _, by decide⟩, h1, h2, ?_⟩
  rw [h1, h2]
  decide

/-- C8: whatever `qsort` returns for the emitted events under its contract with
`cmp_event` is a permutation of them in non-decreasing order of time, and among
events with the same time no event precedes one of lower priority value: every
Meta (0) precedes every NoteOff (1), which precedes every NoteOn (2). -/
theorem qsort_orders_by_time_then_priority (emitted out : List Event)
    (h : is_qsort_result emitted out) :
    out.Perm emitted
    ∧ out.Pairwise (fun a b => a.time ≤ b.time)
    ∧ out.Pairwise (fun a b => a.time = b.time → a.priority ≤ b.priority) := by
  have hp := sorted_by_cmp_pairwise out h.2
  refine ⟨h.1, hp.imp ?_, hp.imp ?_⟩
  · intro a b hab
    rw [cmp_event_le_iff] at hab
    omega
  · intro a b hab
    rw [cmp_event_le_iff] at hab
    omega

/-- Witness for C8: note-on, note-off and tempo events emitted at tick 0 are
encoded as tempo, note-off, note-on. -/
theorem qsort_orders_by_time_then_priority_witness :
    (qsort_stable same_tick_events).Perm same_tick_events
    ∧ (qsort_stable same_tick_events).Pairwise (fun a b => a.time ≤ b.time)
    ∧ (qsort_stable same_tick_events).Pairwise
        (fun a b => a.time = b.time → a.priority ≤ b.priority) :=
  qsort_orders_by_time_then_priority same_tick_events (qsort_stable same_tick_events)
    (qsort_stable_is_qsort_result same_tick_events)

/-- C9: for every event sequence ordered by non-decreasing time (times being
unsigned 32-bit), the track body is the concatenation, over the events in order,
of VLQ(delta) followed by the payload bytes, followed by `00 FF 2F 00`; the
deltas computed by the loop are the exact differences `time_i - time_(i-1)` (0
before the first event), so no subtraction wraps, and the running sum of the
deltas up to each event is that event's absolute tick. -/
theorem build_track_delta_encoding (evs : List Event)
    (hs : evs.Pairwise (fun a b => a.time ≤ b.time))
    (ht : ∀ e ∈ evs, e.time < 2 ^ 32) :
    build_track evs = track_body ((exact_deltas 0 evs).map Int.toNat) evs
    ∧ (track_deltas 0 evs).map Int.ofNat = exact_deltas 0 evs
    ∧ (track_deltas 0 evs).length = evs.length
    ∧ ∀ (i : Nat) (hi : i < evs.length),
        ((track_deltas 0 evs).take (i + 1)).sum = evs[i].time := by
  have ht2 : ∀ e ∈ evs, e.time < 4294967296 := fun e he => by
    have := ht e he
    norm_num at this
    exact this
  have hex := track_deltas_exact evs 0 (fun e _ => Nat.zero_le _) hs ht2
  refine ⟨?_, hex, ?_, ?_⟩
  · rw [build_track_eq evs, ← hex, List.map_map]
    have hid : (Int.toNat ∘ Int.ofNat) = id := by
      funext x
      rfl
    rw [hid, List.map_id]
  · have hlen : ∀ (l : List Event) (last : Nat), (track_deltas last l).length = l.length := by
      intro l
      induction l with
      | nil => intro last; rfl
      | cons e es ih => intro last; simp [track_deltas, ih]
    exact hlen evs 0
  · intro i hi
    have := track_deltas_sum evs 0 (fun e _ => Nat.zero_le _) hs ht2 i hi
    omega

/-- Witness for C9 on a five-event sequence with deltas 0, 0, 192, 0, 69808. -/
theorem build_track_delta_encoding_witness :
    build_track sample_track_events
      = track_body ((exact_deltas 0 sample_track_events).map Int.toNat) sample_track_events
    ∧ (track_deltas 0 sample_track_events).map Int.ofNat = exact_deltas 0 sample_track_events
    ∧ (track_deltas 0 sample_track_events).length = sample_track_events.length
    ∧ ∀ (i : Nat) (hi : i < sample_track_events.length),
        ((track_deltas 0 sample_track_events).take (i + 1)).sum = sample_track_events[i].time :=
  build_track_delta_encoding sample_track_events (by decide) (by decide)

/-! ## Theorems: file layout -/

/-- C10 as stated fails: for the score of 536870911 lines `C4 1` (1073741823
events, each taking at least 4 bytes of track) the track body has at least 2^32
bytes, so the 32-bit length field written after `MTrk` is not the number of
bytes that follow it. -/
theorem main_length_field_wraps :
    ∃ (st : State) (bytes : List Nat),
      parse_score (short_notes_score 536870911) = .ok st
      ∧ main qsort_stable (short_notes_score 536870911) = .ok bytes
      ∧ 4294967296 ≤ (bytes.drop 22).length
      ∧ read_be32 ((bytes.drop 18).take 4) ≠ (bytes.drop 22).length := by
  obtain ⟨evs1, c1, h1, h2, h3⟩ := parse_short_notes 536870911 (add_event [] (tempo_event 0 120)) 0 0
  have hparse : parse_score (short_notes_score 536870911)
      = .ok { bpm := 120, ppq := 480, channel := 0, events := evs1, curTick := c1 } := by
    unfold parse_score
    rw [fgets_lines_short_notes]
    exact h1
  have hpay : ∀ e ∈ evs1, 3 ≤ (e.data.take e.len).length := by
    apply h3
    intro e he
    simp only [add_event, List.nil_append, List.mem_singleton] at he
    subst he
    decide
  have hperm := qsort_stable_perm evs1
  have hpay2 : ∀ e ∈ qsort_stable evs1, 3 ≤ (e.data.take e.len).length :=
    fun e he => hpay e (hperm.subset he)
  have hlen := build_track_length_ge (qsort_stable evs1) hpay2
  rw [hperm.length_eq, h2] at hlen
  simp only [add_event, List.nil_append, List.length_singleton] at hlen
  have hbig : 4294967296 ≤ (build_track (qsort_stable evs1)).length := by omega
  refine ⟨_, _, hparse, main_eq qsort_stable _ _ hparse, ?_, ?_⟩
  · rw [build_file_eq]
    simpa [tag_MThd, tag_MTrk, be16_bytes, be32_bytes] using hbig
  · rw [build_file_eq]
    have hfield : List.take 4 (List.drop 18
        (tag_MThd ++ [0, 0, 0, 6] ++ [0, 0] ++ [0, 1] ++ be16_bytes (toU32 (480 : Int)) ++ tag_MTrk
          ++ be32_bytes ((build_track (qsort_stable evs1)).length % 4294967296)
          ++ build_track (qsort_stable evs1)))
        = be32_bytes ((build_track (qsort_stable evs1)).length % 4294967296) := by
      simp [tag_MThd, tag_MTrk, be16_bytes, be32_bytes]
    have hbody : (List.drop 22
        (tag_MThd ++ [0, 0, 0, 6] ++ [0, 0] ++ [0, 1] ++ be16_bytes (toU32 (480 : Int)) ++ tag_MTrk
          ++ be32_bytes ((build_track (qsort_stable evs1)).length % 4294967296)
          ++ build_track (qsort_stable evs1))).length
        = (build_track (qsort_stable evs1)).length := by
      simp [tag_MThd, tag_MTrk, be16_bytes, be32_bytes]
    rw [hfield, hbody]
    have := read_be32_bytes_lt ((build_track (qsort_stable evs1)).length % 4294967296)
    omega

/-- C10 amended: for every accepted score whose track body is shorter than 2^32
bytes, the output is `MThd`, `00 00 00 06`, `00 00`, `00 01`, the 16-bit
big-endian ppq in effect at the end of parsing (480 when no `ppq` line occurs),
`MTrk`, the 32-bit big-endian length `L` of the track body and the `L` bytes of
the track body; the total length is `22 + L`. -/
theorem main_file_layout (qsort : List Event → List Event) (input : List Char) (st : State)
    (hp : parse_score input = .ok st)
    (hL : (build_track (qsort st.events)).length < 2 ^ 32) :
    main qsort input
      = .ok (tag_MThd ++ [0, 0, 0, 6] ++ [0, 0] ++ [0, 1] ++ be16_bytes st.ppq.toNat ++ tag_MTrk
          ++ be32_bytes (build_track (qsort st.events)).length
          ++ build_track (qsort st.events))
    ∧ (read_be16 (be16_bytes st.ppq.toNat) : Int) = st.ppq
    ∧ read_be32 (be32_bytes (build_track (qsort st.events)).length)
        = (build_track (qsort st.events)).length
    ∧ (tag_MThd ++ [0, 0, 0, 6] ++ [0, 0] ++ [0, 1] ++ be16_bytes st.ppq.toNat ++ tag_MTrk
          ++ be32_bytes (build_track (qsort st.events)).length
          ++ build_track (qsort st.events)).length
        = 22 + (build_track (qsort st.events)).length
    ∧ ((∀ l ∈ fgets_lines [] input, first_token l ≠ some ['p', 'p', 'q']) → st.ppq = 480) := by
  have hL2 : (build_track (qsort st.events)).length < 4294967296 := by
    norm_num at hL
    exact hL
  have hq := parse_lines_ppq (fgets_lines [] input) initial_state st 0 hp (by decide) (by decide)
  obtain ⟨hq0, hq1, hq2⟩ := hq
  have hu : toU32 st.ppq = st.ppq.toNat := toU32_of_range _ (by omega) (by omega)
  refine ⟨?_, ?_, read_be32_bytes _ hL2, ?_, hq2⟩
  · rw [main_eq qsort input st hp, build_file_eq, hu, Nat.mod_eq_of_lt hL2]
  · rw [read_be16_bytes _ (by omega)]
    exact Int.toNat_of_nonneg (by omega)
  · simp [tag_MThd, tag_MTrk, be16_bytes, be32_bytes]
    omega

/-- Witness for C10 amended: the score `ppq 960`, `C4 1` gives division `03 C0`
and a 19-byte track body. -/
theorem main_file_layout_witness :
    main qsort_stable ppq_note_score
      = .ok (tag_MThd ++ [0, 0, 0, 6] ++ [0, 0] ++ [0, 1] ++ be16_bytes (960 : Int).toNat
          ++ tag_MTrk
          ++ be32_bytes (build_track (qsort_stable ppq_note_state.events)).length
          ++ build_track (qsort_stable ppq_note_state.events))
    ∧ (build_track (qsort_stable ppq_note_state.events)).length = 19 :=
  have hb : build_track (qsort_stable ppq_note_state.events)
      = [0, 255, 81, 3, 7, 161, 32, 0, 144, 60, 100, 2, 128, 60, 0, 0, 255, 47, 0] := by
    have hs : qsort_stable ppq_note_state.events
        = [⟨0, 0, [255, 81, 3, 7, 161, 32, 0, 0], 6⟩, ⟨0, 2, [144, 60, 100, 0, 0, 0, 0, 0], 3⟩,
           ⟨2, 1, [128, 60, 0, 0, 0, 0, 0, 0], 3⟩] := by decide
    rw [hs, build_track_eq]
    simp [track_body, track_deltas, u32_sub, bb_put_vlq_small]
  ⟨(main_file_layout qsort_stable ppq_note_score ppq_note_state rfl
      (by rw [hb]; norm_num)).1, by rw [hb]; rfl⟩

/-! ## Helper lemmas: the loop body as validation and effect -/

theorem process_line_eq (st : State) (line : List Char) :
    process_line st line = (parse_command line).map (run_command st) := by
  unfold process_line parse_command command_of_tokens first_token second_token third_token
    line_text
  simp only []
  repeat' split
  all_goals first
    | rfl
    | (simp only [note_velocity, Except.map, run_command, *, if_true, if_false])

theorem dropWhile_head_false (p : Char → Bool) (l : List Char) (x : Char) (xs : List Char)
    (h : l.dropWhile p = x :: xs) : p x = false := by
  induction l with
  | nil => cases h
  | cons a t ih =>
    rw [List.dropWhile_cons] at h
    by_cases hp : p a = true
    · rw [if_pos hp] at h
      exact ih h
    · rw [if_neg hp] at h
      have ha : a = x := (List.cons.inj h).1
      rw [← ha]
      simpa using hp

theorem is_delim_isspace (c : Char) (h : isspace c = false) : is_delim c = false := by
  cases hd : is_delim c with
  | false => rfl
  | true =>
    simp only [is_delim, Bool.or_eq_true, decide_eq_true_eq] at hd
    rcases hd with rfl | rfl <;> exact absurd h (by decide)

theorem first_token_head (line : List Char) (c : Char) (cs : List Char)
    (h : first_token line = some (c :: cs)) :
    ∃ xs, line_text line = c :: xs ∧ isspace c = false := by
  unfold first_token at h
  have ht : line_text line
      = ltrim (rtrim_inplace (line.takeWhile (fun c => c ≠ Char.ofNat 0))) := rfl
  rw [← ht] at h
  cases hs : line_text line with
  | nil =>
    rw [hs] at h
    simp [strtok] at h
  | cons x xs =>
    have hx : isspace x = false := by
      rw [ht] at hs
      exact dropWhile_head_false isspace _ x xs hs
    have hdl := is_delim_isspace x hx
    rw [hs] at h
    simp only [strtok, List.dropWhile_cons, hdl, Bool.false_eq_true, if_false,
      List.takeWhile_cons, Bool.not_false, if_true, Option.some.injEq, List.cons.injEq] at h
    rw [← h.1]
    exact ⟨xs, rfl, hx⟩

theorem parse_command_tokens (line : List Char) (c : Char) (cs : List Char)
    (h : first_token line = some (c :: cs)) (hc : c ≠ '#') :
    parse_command line = command_of_tokens (c :: cs) (second_token line) (third_token line) := by
  obtain ⟨xs, hx, hsp⟩ := first_token_head line c cs h
  have hb : is_blank_or_comment (line_text line) = false := by
    rw [hx]
    simp only [is_blank_or_comment, List.dropWhile_cons, hsp, Bool.false_eq_true, if_false,
      decide_eq_false_iff_not]
    exact hc
  unfold parse_command
  rw [hb, h]
  rfl

theorem state_ok_initial : state_ok initial_state := by
  unfold state_ok initial_state
  simp

theorem process_line_state_ok (st st1 : State) (line : List Char)
    (h : process_line st line = .ok st1) (hs : state_ok st) : state_ok st1 := by
  unfold state_ok at hs ⊢
  obtain ⟨h1, h2, h3, h4, h5, h6, h7⟩ := hs
  have hm : ∀ x : Nat, x % 4294967296 < 4294967296 := fun x => Nat.mod_lt x (by decide)
  rcases process_line_cases st st1 line h with rfl | ⟨n, hn1, hn2, rfl⟩
    | ⟨n, hn1, hn2, _, rfl⟩ | ⟨n, hn1, hn2, rfl⟩ | ⟨n, _, _, rfl⟩
    | ⟨_, _, _, _, _, _, _, _, _, rfl⟩
  · exact ⟨h1, h2, h3, h4, h5, h6, h7⟩
  · exact ⟨hn1, hn2, h3, h4, h5, h6, h7⟩
  · exact ⟨h1, h2, hn1, hn2, h5, h6, h7⟩
  · exact ⟨h1, h2, h3, h4, hn1, hn2, h7⟩
  · exact ⟨h1, h2, h3, h4, h5, h6, hm _⟩
  · exact ⟨h1, h2, h3, h4, h5, h6, hm _⟩

theorem parse_lines_state_ok (ls : List (List Char)) (st st1 : State) (k : Nat)
    (h : parse_lines st k ls = .ok st1) (hs : state_ok st) : state_ok st1 := by
  induction ls generalizing st k with
  | nil =>
    have e : st1 = st := (Except.ok.inj h).symm
    rw [e]
    exact hs
  | cons l ls ih =>
    unfold parse_lines at h
    split at h
    · cases h
    · rename_i st2 hl
      exact ih st2 (k + 1) h (process_line_state_ok st st2 l hl hs)

theorem parse_score_state_ok (input : List Char) (st : State)
    (h : parse_score input = .ok st) : state_ok st :=
  parse_lines_state_ok _ initial_state st 0 h state_ok_initial

/-! ## Helper lemmas: sorting without ties -/

theorem qsort_result_unique (l out : List Event)
    (hl : l.Pairwise (fun a b => ¬ cmp_event b a ≤ 0)) (h : is_qsort_result l out) :
    out = l := by
  induction l generalizing out with
  | nil => exact List.Perm.eq_nil h.1
  | cons a t ih =>
    obtain ⟨hperm, hsorted⟩ := h
    have hpw := sorted_by_cmp_pairwise out hsorted
    cases out with
    | nil => exact absurd hperm.symm.eq_nil (by simp)
    | cons x rest =>
      have hl2 := List.pairwise_cons.mp hl
      have hp2 := List.pairwise_cons.mp hpw
      have hxa : x = a := by
        by_contra hne
        have hx : x ∈ a :: t := hperm.subset (List.mem_cons_self x rest)
        have hxt : x ∈ t := by
          rcases List.mem_cons.mp hx with hx | hx
          · exact absurd hx hne
          · exact hx
        have ha : a ∈ x :: rest := hperm.symm.subset (List.mem_cons_self a t)
        have har : a ∈ rest := by
          rcases List.mem_cons.mp ha with ha | ha
          · exact absurd ha.symm hne
          · exact ha
        exact hl2.1 x hxt (hp2.1 a har)
      subst hxa
      have hrest : rest.Perm t := List.Perm.cons_inv hperm
      rw [ih rest hl2.2 ⟨hrest, pairwise_sorted_by_cmp rest hp2.2⟩]

theorem bb_put_vlq_two (b : List Nat) (v : Nat) (h1 : 128 ≤ v) (h2 : v < 16384) :
    bb_put_vlq b v = b ++ [v / 128 + 128, v % 128] := by
  rw [bb_put_vlq_eq, vlq_loop_big v (by omega), vlq_loop_small (v / 128) (by omega),
    Nat.mod_eq_of_lt (by omega : v / 128 < 128)]
  rfl

/-! ## Theorems: end to end -/

/-- C11: compiling the score `C4 200` with the defaults, whatever `qsort` does
within its contract, yields a header whose division field is 480 (`01 E0`) and
the 20-byte track body `00 FF 51 03 07 A1 20`, `00 90 3C 64`, `81 40 80 3C 00`,
`00 FF 2F 00`. -/
theorem compile_c4_200 (qsort : List Event → List Event)
    (hq : ∀ l, is_qsort_result l (qsort l)) :
    parse_score c4_200_score
      = .ok { bpm := 120, ppq := 480, channel := 0, events := c4_200_events, curTick := 192 }
    ∧ build_track (qsort c4_200_events)
      = [0x00, 0xFF, 0x51, 0x03, 0x07, 0xA1, 0x20, 0x00, 0x90, 0x3C, 0x64,
         0x81, 0x40, 0x80, 0x3C, 0x00, 0x00, 0xFF, 0x2F, 0x00]
    ∧ (build_track (qsort c4_200_events)).length = 20
    ∧ main qsort c4_200_score
      = .ok ([0x4D, 0x54, 0x68, 0x64, 0, 0, 0, 6, 0, 0, 0, 1, 0x01, 0xE0,
              0x4D, 0x54, 0x72, 0x6B, 0, 0, 0, 20]
            ++ [0x00, 0xFF, 0x51, 0x03, 0x07, 0xA1, 0x20, 0x00, 0x90, 0x3C, 0x64,
                0x81, 0x40, 0x80, 0x3C, 0x00, 0x00, 0xFF, 0x2F, 0x00]) := by
  have hparse : parse_score c4_200_score
      = .ok { bpm := 120, ppq := 480, channel := 0, events := c4_200_events, curTick := 192 } :=
    rfl
  have hev : c4_200_events =
      [⟨0, 0, [255, 81, 3, 7, 161, 32, 0, 0], 6⟩, ⟨0, 2, [144, 60, 100, 0, 0, 0, 0, 0], 3⟩,
       ⟨192, 1, [128, 60, 0, 0, 0, 0, 0, 0], 3⟩] := by decide
  have hstrict : c4_200_events.Pairwise (fun a b => ¬ cmp_event b a ≤ 0) := by
    rw [hev]
    simp only [List.pairwise_cons, List.mem_cons, List.mem_singleton, List.not_mem_nil,
      forall_eq_or_imp, forall_eq, false_implies, implies_true, List.Pairwise.nil, and_true]
    decide
  have hsort : qsort c4_200_events = c4_200_events :=
    qsort_result_unique c4_200_events _ hstrict (hq c4_200_events)
  have hbody : build_track (qsort c4_200_events)
      = [0x00, 0xFF, 0x51, 0x03, 0x07, 0xA1, 0x20, 0x00, 0x90, 0x3C, 0x64,
         0x81, 0x40, 0x80, 0x3C, 0x00, 0x00, 0xFF, 0x2F, 0x00] := by
    rw [hsort, build_track_eq, hev]
    simp [track_body, track_deltas, u32_sub, bb_put_vlq_small,
      bb_put_vlq_two [] 192 (by decide) (by decide)]
  refine ⟨hparse, hbody, by rw [hbody]; rfl, ?_⟩
  rw [main_eq qsort c4_200_score _ hparse]
  simp only []
  rw [hbody, build_file_eq]
  congr 1

/-- Witness for C11 with the insertion sort as `qsort`. -/
theorem compile_c4_200_witness :
    build_track (qsort_stable c4_200_events)
      = [0x00, 0xFF, 0x51, 0x03, 0x07, 0xA1, 0x20, 0x00, 0x90, 0x3C, 0x64,
         0x81, 0x40, 0x80, 0x3C, 0x00, 0x00, 0xFF, 0x2F, 0x00] :=
  (compile_c4_200 qsort_stable qsort_stable_is_qsort_result).2.1

/-! ## Helper lemmas: single lines -/

theorem ms_to_ticks_le (ms bpm ppq : Int) : ms_to_ticks ms bpm ppq ≤ 2147483647 := by
  unfold ms_to_ticks
  simp only []
  generalize Int.tdiv (wrap64 (wrap64 (wrap64 (ms * bpm) * ppq) + Int.tdiv 60000 2)) 60000 = t
  unfold toU32
  split_ifs <;> omega

theorem tempo_micros (bpm : Int) (h0 : 20 ≤ bpm) (h1 : bpm ≤ 400) :
    wrap32 (Int.tdiv 60000000 bpm) = 60000000 / bpm
    ∧ 150000 ≤ (60000000 : Int) / bpm ∧ (60000000 : Int) / bpm ≤ 3000000 := by
  have hq : Int.tdiv 60000000 bpm = 60000000 / bpm := by
    rw [Int.tdiv_eq_ediv] <;> omega
  have hlo : 150000 ≤ (60000000 : Int) / bpm := by
    apply Int.le_ediv_of_mul_le (by omega)
    omega
  have hhi : (60000000 : Int) / bpm ≤ 3000000 := by
    have h3 : (60000000 : Int) / bpm < 3000001 := by
      apply Int.ediv_lt_of_lt_mul (by omega)
      omega
    omega
  rw [hq, wrap32_of_range _ (by omega) (by omega)]
  exact ⟨rfl, hlo, hhi⟩

theorem or_status_nibble : ∀ x < 16, (0x90 ||| x) % 256 = 0x90 + x ∧ (0x80 ||| x) % 256 = 0x80 + x := by
  decide

theorem note_to_midi_head (tok : List Char) (p : Int) (h : note_to_midi tok = some p) :
    ∃ c cs, tok = c :: cs ∧ c ≠ '#' := by
  cases tok with
  | nil => simp [note_to_midi, char_at] at h
  | cons c cs =>
    refine ⟨c, cs, rfl, ?_⟩
    rintro rfl
    have hn := note_base_none_of_not_letter '#' (by decide)
    unfold note_to_midi at h
    simp only [char_at, List.getD_cons_zero, hn] at h
    split_ifs at h

/-! ## Theorems: single lines -/

/-- C12: for every bpm in 20..400, a tempo line sets the bpm of the state and
emits one priority-0 event at the current cursor tick whose 6-byte payload is
`FF 51 03` followed by the 24-bit big-endian value of `floor(60000000 / bpm)`;
that value fits in 24 bits, so the three bytes read back give it exactly
(`07 A1 20` for 120 bpm). -/
theorem tempo_line_effect (st : State) (line tok2 : List Char) (bpm : Int)
    (h1 : first_token line = some ['t', 'e', 'm', 'p', 'o'])
    (h2 : second_token line = some tok2) (hv : atoi tok2 = bpm)
    (hb0 : 20 ≤ bpm) (hb1 : bpm ≤ 400) :
    process_line st line
      = .ok { st with bpm := bpm, events := st.events ++ [tempo_event st.curTick bpm] }
    ∧ (tempo_event st.curTick bpm).time = st.curTick
    ∧ (tempo_event st.curTick bpm).priority = 0
    ∧ (tempo_event st.curTick bpm).len = 6
    ∧ (tempo_event st.curTick bpm).data.take 3 = [0xFF, 0x51, 0x03]
    ∧ (∀ b ∈ (tempo_event st.curTick bpm).data, b < 256)
    ∧ (60000000 : Int) / bpm < 2 ^ 24
    ∧ (read_be24 (((tempo_event st.curTick bpm).data.take 6).drop 3) : Int) = 60000000 / bpm
    ∧ (tempo_event 0 120).data.take 6 = [0xFF, 0x51, 0x03, 0x07, 0xA1, 0x20] := by
  obtain ⟨hw, hlo, hhi⟩ := tempo_micros bpm hb0 hb1
  have hproc : process_line st line
      = .ok { st with bpm := bpm, events := st.events ++ [tempo_event st.curTick bpm] } := by
    rw [process_line_eq, parse_command_tokens line 't' _ h1 (by decide), h2]
    simp only [command_of_tokens, if_true, hv]
    rw [if_neg (by omega)]
    rfl
  refine ⟨hproc, rfl, rfl, rfl, rfl, ?_, ?_, ?_, by decide⟩
  · intro b hb
    simp only [tempo_event, hw, byte_of, List.mem_cons, List.mem_singleton,
      List.not_mem_nil, or_false] at hb
    rcases hb with rfl | rfl | rfl | rfl | rfl | rfl | rfl | rfl <;> omega
  · norm_num
    omega
  · simp only [tempo_event, hw, byte_of, read_be24, List.take_succ_cons, List.take_zero,
      List.drop_succ_cons, List.drop_zero, List.getD_cons_zero, List.getD_cons_succ]
    norm_num
    omega

/-- Witness for C12: the line `tempo 90` in the initial state. -/
theorem tempo_line_effect_witness :
    process_line initial_state tempo_90_line
      = .ok { initial_state with
          bpm := 90
          events := initial_state.events ++ [tempo_event initial_state.curTick 90] }
    ∧ (read_be24 (((tempo_event initial_state.curTick 90).data.take 6).drop 3) : Int)
        = 60000000 / 90 :=
  have h := tempo_line_effect initial_state tempo_90_line ['9', '0'] 90 (by decide) (by decide)
    (by decide) (by decide) (by decide)
  ⟨h.1, h.2.2.2.2.2.2.2.1⟩

theorem or_status_channel : ∀ x < 16,
    (0x90 ||| x) % 256 = 0x90 ||| x ∧ (0x80 ||| x) % 256 = 0x80 ||| x := by
  decide

theorem note_velocity_range (t : Option (List Char)) :
    0 ≤ note_velocity t ∧ note_velocity t ≤ 127 := by
  cases t with
  | none => exact ⟨by decide, by decide⟩
  | some tok3 =>
    simp only [note_velocity]
    split_ifs <;> omega

theorem note_velocity_some (t3 : List Char) :
    note_velocity (some t3) = max 0 (min 127 (atoi t3)) := by
  simp only [note_velocity]
  split_ifs <;> omega

theorem status_byte (ch : Int) (h0 : 0 ≤ ch) (h1 : ch ≤ 15) :
    (0x90 ||| (ch % 16).toNat) % 256 = 0x90 ||| ch.toNat
    ∧ (0x80 ||| (ch % 16).toNat) % 256 = 0x80 ||| ch.toNat := by
  have hc : ch % 16 = ch := Int.emod_eq_of_lt h0 (by omega)
  rw [hc]
  exact or_status_channel ch.toNat (by omega)

theorem data_byte (x : Int) (h0 : 0 ≤ x) (h1 : x ≤ 127) : (x % 256).toNat = x.toNat := by
  rw [Int.emod_eq_of_lt h0 (by omega)]

/-- C13 as stated fails: after two lines `rest 2147483647` the cursor is
4123168602; the note line `C4 2147483647` lasts 2061584301 ticks, and its
note-off is emitted at 1889785607, the sum reduced modulo 2^32, not at the sum
6184752903. -/
theorem note_off_time_wraps :
    parse_score two_long_rests_score = .ok two_long_rests_state
    ∧ ms_to_ticks 2147483647 two_long_rests_state.bpm two_long_rests_state.ppq = 2061584301
    ∧ process_line two_long_rests_state long_note_line
        = .ok { two_long_rests_state with
            events := [tempo_event 0 120, note_on_event 4123168602 0 60 100,
              note_off_event 1889785607 0 60]
            curTick := 1889785607 }
    ∧ (1889785607 : Nat) ≠ 4123168602 + 2061584301 := by
  refine ⟨rfl, by decide, rfl, by decide⟩

/-- C13 amended: for every accepted note line with resolved pitch `p` and
duration `ms > 0`, in a state with channel in 0..15 and cursor `c`, with
`d = ms_to_ticks ms bpm ppq`: exactly two events are emitted, a NoteOn
(priority 2) at time `c` with payload `[0x90 | channel, p, v]` and a NoteOff
(priority 1) at time `(c + d) mod 2^32` with payload `[0x80 | channel, p, 0]`,
where `v` is 100 without a third token and otherwise the value of that token
clamped into 0..127; the cursor becomes `(c + d) mod 2^32`, which is `c + d`
whenever `c + d < 2^32`; bpm, ppq and channel are unchanged. -/
theorem note_line_effect (st : State) (line tok1 tok2 : List Char) (p ms : Int)
    (hs : state_ok st) (h1 : first_token line = some tok1)
    (hk1 : tok1 ≠ ['t', 'e', 'm', 'p', 'o']) (hk2 : tok1 ≠ ['p', 'p', 'q'])
    (hk3 : tok1 ≠ ['c', 'h', 'a', 'n', 'n', 'e', 'l']) (hk4 : tok1 ≠ ['r', 'e', 's', 't'])
    (hp : note_to_midi tok1 = some p)
    (h2 : second_token line = some tok2) (hms : atoi tok2 = ms) (hpos : 0 < ms) :
    process_line st line
      = .ok { st with
          events := st.events ++
            [{ time := st.curTick
               priority := 2
               data := [0x90 ||| st.channel.toNat, p.toNat,
                 (note_velocity (third_token line)).toNat, 0, 0, 0, 0, 0]
               len := 3 },
             { time := (st.curTick + ms_to_ticks ms st.bpm st.ppq) % 4294967296
               priority := 1
               data := [0x80 ||| st.channel.toNat, p.toNat, 0, 0, 0, 0, 0, 0]
               len := 3 }]
          curTick := (st.curTick + ms_to_ticks ms st.bpm st.ppq) % 4294967296 }
    ∧ (st.curTick + ms_to_ticks ms st.bpm st.ppq < 4294967296 →
        (st.curTick + ms_to_ticks ms st.bpm st.ppq) % 4294967296
          = st.curTick + ms_to_ticks ms st.bpm st.ppq)
    ∧ 0 ≤ p ∧ p ≤ 127
    ∧ 0 ≤ note_velocity (third_token line) ∧ note_velocity (third_token line) ≤ 127
    ∧ (third_token line = none → note_velocity (third_token line) = 100)
    ∧ (∀ t3, third_token line = some t3 →
        note_velocity (third_token line) = max 0 (min 127 (atoi t3))) := by
  obtain ⟨_, _, _, _, hc0, hc1, _⟩ := hs
  obtain ⟨c, cs, rfl, hc⟩ := note_to_midi_head tok1 p hp
  have hpr := note_to_midi_range _ p hp
  have hvr := note_velocity_range (third_token line)
  obtain ⟨hst1, hst2⟩ := status_byte st.channel hc0 hc1
  refine ⟨?_, fun h => Nat.mod_eq_of_lt h, hpr.1, hpr.2, hvr.1, hvr.2, ?_, ?_⟩
  · rw [process_line_eq, parse_command_tokens line c cs h1 hc, h2]
    simp only [command_of_tokens, hk1, hk2, hk3, hk4, if_false, hp, hms]
    rw [if_neg (by omega)]
    simp only [Except.map, run_command, add_event, note_on_event, note_off_event,
      List.append_assoc, List.singleton_append, hst1, hst2, data_byte p hpr.1 hpr.2,
      data_byte _ hvr.1 hvr.2]
  · intro h
    rw [h]
    rfl
  · intro t3 h
    rw [h]
    exact note_velocity_some t3

/-- Witness for C13 amended: the line `F#3 120 90` in the initial state emits a
note-on and a note-off for pitch 54 with velocity 90. -/
theorem note_line_effect_witness :
    process_line initial_state fs3_line
      = .ok { initial_state with
          events := initial_state.events ++
            [{ time := initial_state.curTick
               priority := 2
               data := [0x90 ||| initial_state.channel.toNat, (54 : Int).toNat,
                 (note_velocity (third_token fs3_line)).toNat, 0, 0, 0, 0, 0]
               len := 3 },
             { time := (initial_state.curTick
                 + ms_to_ticks 120 initial_state.bpm initial_state.ppq) % 4294967296
               priority := 1
               data := [0x80 ||| initial_state.channel.toNat, (54 : Int).toNat, 0, 0, 0, 0, 0, 0]
               len := 3 }]
          curTick := (initial_state.curTick
            + ms_to_ticks 120 initial_state.bpm initial_state.ppq) % 4294967296 } :=
  (note_line_effect initial_state fs3_line ['F', '#', '3'] ['1', '2', '0'] 54 120
    state_ok_initial (by decide) (by decide) (by decide) (by decide) (by decide) (by decide)
    (by decide) (by decide) (by decide)).1

/-! ## Helper lemmas: failing lines -/

theorem line_error_none (l : List Char) (h : line_error l = none) :
    ∃ c, parse_command l = .ok c := by
  unfold line_error at h
  cases hc : parse_command l with
  | error e => rw [hc] at h; cases h
  | ok c => exact ⟨c, rfl⟩

theorem line_error_some (l : List Char) (e : ParseError) (h : line_error l = some e) :
    parse_command l = .error e := by
  unfold line_error at h
  cases hc : parse_command l with
  | error e1 =>
    rw [hc] at h
    simp only [Option.some.injEq] at h
    rw [h]
  | ok c => rw [hc] at h; cases h

theorem parse_lines_first_error (pre : List (List Char)) (bad : List Char)
    (post : List (List Char)) (e : ParseError) (st : State) (k : Nat)
    (hpre : ∀ l ∈ pre, line_error l = none) (hbad : line_error bad = some e) :
    parse_lines st k (pre ++ bad :: post) = .error (k + pre.length + 1, e) := by
  induction pre generalizing st k with
  | nil =>
    simp only [List.nil_append, parse_lines, process_line_eq, line_error_some bad e hbad,
      Except.map, List.length_nil, Nat.add_zero]
  | cons l pre ih =>
    obtain ⟨c, hc⟩ := line_error_none l (hpre l (List.mem_cons_self l pre))
    have hstep : process_line st l = .ok (run_command st c) := by
      rw [process_line_eq, hc]
      rfl
    have hlen : k + 1 + pre.length + 1 = k + (l :: pre).length + 1 := by
      simp only [List.length_cons]
      omega
    rw [List.cons_append]
    unfold parse_lines
    rw [hstep]
    simp only []
    rw [ih (run_command st c) (k + 1) (fun x hx => hpre x (List.mem_cons_of_mem l hx)), hlen]

theorem first_token_ne_nil (line : List Char) : first_token line ≠ some [] := by
  unfold first_token strtok
  split
  · simp
  · rename_i c cs hs
    have hd := dropWhile_head_false is_delim _ c cs hs
    simp [List.takeWhile_cons, hd]

theorem error_branch_iff (P : Prop) [Decidable P] (x : ParseError) (y : Command) :
    (∃ e, (if P then (Except.error x : Except ParseError Command) else .ok y) = .error e)
      ↔ P := by
  by_cases h : P
  · rw [if_pos h]
    exact ⟨fun _ => h, fun _ => ⟨x, rfl⟩⟩
  · rw [if_neg h]
    constructor
    · rintro ⟨e, he⟩
      cases he
    · intro hp
      exact absurd hp h

theorem fails_validation_iff (tok1 : List Char) (tok2 tok3 : Option (List Char)) :
    fails_validation tok1 tok2 = true ↔ ∃ e, command_of_tokens tok1 tok2 tok3 = .error e := by
  unfold fails_validation command_of_tokens
  cases tok2 with
  | none =>
    simp only [true_iff]
    split_ifs <;> exact ⟨_, rfl⟩
  | some t2 =>
    simp only []
    by_cases h1 : tok1 = ['t', 'e', 'm', 'p', 'o']
    · rw [if_pos h1, if_pos h1, error_branch_iff, decide_eq_true_eq]
    rw [if_neg h1, if_neg h1]
    by_cases h2 : tok1 = ['p', 'p', 'q']
    · rw [if_pos h2, if_pos h2, error_branch_iff, decide_eq_true_eq]
    rw [if_neg h2, if_neg h2]
    by_cases h3 : tok1 = ['c', 'h', 'a', 'n', 'n', 'e', 'l']
    · rw [if_pos h3, if_pos h3, error_branch_iff, decide_eq_true_eq]
    rw [if_neg h3, if_neg h3]
    by_cases h4 : tok1 = ['r', 'e', 's', 't']
    · rw [if_pos h4, if_pos h4, error_branch_iff, decide_eq_true_eq]
    rw [if_neg h4, if_neg h4]
    cases hn : note_to_midi tok1 with
    | none =>
      simp only [Option.isNone_none, Bool.true_or, true_iff]
      exact ⟨_, rfl⟩
    | some p =>
      simp only [Option.isNone_some, Bool.false_or]
      rw [error_branch_iff, decide_eq_true_eq]

theorem line_fails_iff (line : List Char) :
    line_fails line = true ↔ line_error line ≠ none := by
  unfold line_fails line_error
  cases hf : first_token line with
  | none =>
    have hp : parse_command line = .ok .skip := by
      unfold parse_command
      rw [hf]
      split_ifs <;> rfl
    simp [hp]
  | some tok1 =>
    cases tok1 with
    | nil => exact absurd hf (first_token_ne_nil line)
    | cons c cs =>
      by_cases hc : c = '#'
      · subst hc
        obtain ⟨xs, hx, hsp⟩ := first_token_head line '#' cs hf
        have hp : parse_command line = .ok .skip := by
          unfold parse_command
          have hb : is_blank_or_comment (line_text line) = true := by
            rw [hx]
            simp only [is_blank_or_comment, List.dropWhile_cons, hsp, Bool.false_eq_true,
              if_false, decide_True]
          rw [hb]
          rfl
        simp [hp]
      · rw [parse_command_tokens line c cs hf hc]
        have hh : ((c :: cs).head? != some '#') = true := by
          simp [hc]
        simp only [hh, Bool.true_and]
        rw [fails_validation_iff (c :: cs) (second_token line) (third_token line)]
        cases hcmd : command_of_tokens (c :: cs) (second_token line) (third_token line) with
        | error e => simp
        | ok cmd => simp

theorem exists_first_failing (ls : List (List Char)) (h : ∃ l ∈ ls, line_fails l = true) :
    ∃ (pre : List (List Char)) (bad : List Char) (post : List (List Char)),
      ls = pre ++ bad :: post ∧ (∀ l ∈ pre, line_fails l = false) ∧ line_fails bad = true := by
  induction ls with
  | nil =>
    obtain ⟨l, hl, _⟩ := h
    cases hl
  | cons a t ih =>
    cases ha : line_fails a with
    | true => exact ⟨[], a, t, rfl, fun l hl => absurd hl (List.not_mem_nil l), ha⟩
    | false =>
      obtain ⟨l, hl, hlf⟩ := h
      have hlt : l ∈ t := by
        rcases List.mem_cons.mp hl with rfl | hl
        · rw [ha] at hlf
          cases hlf
        · exact hl
      obtain ⟨pre, bad, post, h1, h2, h3⟩ := ih ⟨l, hlt, hlf⟩
      refine ⟨a :: pre, bad, post, by rw [h1]; rfl, ?_, h3⟩
      intro x hx
      rcases List.mem_cons.mp hx with rfl | hx
      · exact ha
      · exact h2 x hx

/-! ## Theorems: validation -/

/-- C14: for every score that contains at least one line failing validation
(a missing argument, tempo outside 20..400, ppq outside 48..9600, channel
outside 0..15, negative rest, a note token that does not resolve, a note
duration that is not positive), compilation fails with the line number and the
error of the first such line and the output file holds no bytes, whatever valid
lines come before or after it; `tempo 500`, `Z4 100` and `C4 0` each fail; a
line fails by its tokens exactly when the loop body returns an error for it. -/
theorem first_failing_line_aborts (input : List Char)
    (hfail : ∃ l ∈ fgets_lines [] input, line_fails l = true) :
    (∃ (pre : List (List Char)) (bad : List Char) (post : List (List Char)) (e : ParseError),
      fgets_lines [] input = pre ++ bad :: post
      ∧ (∀ l ∈ pre, line_fails l = false) ∧ line_fails bad = true
      ∧ (∀ st : State, process_line st bad = .error e)
      ∧ parse_score input = .error (pre.length + 1, e)
      ∧ ∀ qsort : List Event → List Event,
          main qsort input = .error (pre.length + 1, e) ∧ output_file qsort input = [])
    ∧ (∀ (line : List Char) (st : State),
        line_fails line = true ↔ ∃ e, process_line st line = .error e)
    ∧ parse_score tempo_500_score = .error (1, .bpm_out_of_range)
    ∧ parse_score z4_100_score = .error (1, .invalid_note_token)
    ∧ parse_score c4_0_score = .error (1, .duration_not_positive) := by
  refine ⟨?_, ?_, rfl, rfl, rfl⟩
  · obtain ⟨pre, bad, post, h1, h2, h3⟩ := exists_first_failing _ hfail
    have hbad : line_error bad ≠ none := (line_fails_iff bad).mp h3
    obtain ⟨e, he⟩ := Option.ne_none_iff_exists'.mp hbad
    have hpre : ∀ l ∈ pre, line_error l = none := by
      intro l hl
      by_contra hne
      have := (line_fails_iff l).mpr hne
      rw [h2 l hl] at this
      cases this
    have hparse : parse_score input = .error (pre.length + 1, e) := by
      unfold parse_score
      rw [h1, parse_lines_first_error pre bad post e initial_state 0 hpre he]
      simp
    refine ⟨pre, bad, post, e, h1, h2, h3, ?_, hparse, ?_⟩
    · intro st
      rw [process_line_eq, line_error_some bad e he]
      rfl
    · intro qsort
      have hmain : main qsort input = .error (pre.length + 1, e) := by
        unfold main
        rw [hparse]
      refine ⟨hmain, ?_⟩
      unfold output_file
      rw [hmain]
  · intro line st
    rw [line_fails_iff, process_line_eq]
    unfold line_error
    cases parse_command line with
    | error e => simp [Except.map]
    | ok c => simp [Except.map]

/-- Witness for C14: in `C4 200`, `tempo 500`, `E4 200` the second line is the
first that fails, and compilation stops there with its error. -/
theorem first_failing_line_aborts_witness :
    ∃ (pre : List (List Char)) (bad : List Char) (post : List (List Char)) (e : ParseError),
      fgets_lines [] bad_middle_score = pre ++ bad :: post
      ∧ (∀ l ∈ pre, line_fails l = false) ∧ line_fails bad = true
      ∧ (∀ st : State, process_line st bad = .error e)
      ∧ parse_score bad_middle_score = .error (pre.length + 1, e)
      ∧ ∀ qsort : List Event → List Event,
          main qsort bad_middle_score = .error (pre.length + 1, e)
          ∧ output_file qsort bad_middle_score = [] :=
  (first_failing_line_aborts bad_middle_score
    ⟨tempo_500_score, by decide, by decide⟩).1

theorem ok_branch_iff (P : Prop) [Decidable P] (x : ParseError) (y : Command)
    (f : Command → State) :
    (∃ s, Except.map f (if P then (Except.error x : Except ParseError Command) else .ok y)
        = .ok s) ↔ ¬ P := by
  by_cases h : P
  · rw [if_pos h]
    constructor
    · rintro ⟨s, hs⟩
      cases hs
    · intro hn
      exact absurd h hn
  · rw [if_neg h]
    exact ⟨fun _ => h, fun _ => ⟨f y, rfl⟩⟩

theorem atoi_no_digits (c : Char) (cs : List Char) (h1 : isdigit c = false)
    (h2 : isspace c = false) (h3 : c ≠ '-') (h4 : c ≠ '+') : atoi (c :: cs) = 0 := by
  unfold atoi
  simp only [List.dropWhile_cons, h2, Bool.false_eq_true, if_false, char_at,
    List.getD_cons_zero, h3, h4, atoi_digits, h1]
  rfl

/-- C15 as stated fails: `tempo 120abc` is accepted and sets 120 bpm, and
`rest abc` is accepted as a rest of 0 ms, although neither argument token is
entirely an integer. -/
theorem trailing_text_accepted :
    second_token tempo_120abc_line = some ['1', '2', '0', 'a', 'b', 'c']
    ∧ parse_score tempo_120abc_line
        = .ok { initial_state with
            bpm := 120
            events := [tempo_event 0 120, tempo_event 0 120] }
    ∧ second_token rest_abc_line = some ['a', 'b', 'c']
    ∧ parse_score rest_abc_line = .ok initial_state := by
  refine ⟨rfl, rfl, rfl, rfl⟩

/-- C15 amended: the numeric argument of tempo, ppq, channel and rest, and the
duration of a note line, is read with `atoi`, and the line is accepted exactly
when the value `atoi` returns is within its bound (20..400, 48..9600, 0..15, at
least 0, more than 0); for a token whose leading digits, with an optional `-`
before them, denote a value within the range of `int`, `atoi` returns that
value and ignores what follows the digits, and it returns 0 for a token that
starts with neither a digit, a sign nor white space. -/
theorem numeric_argument_by_atoi (st : State) (line tok2 : List Char)
    (h2 : second_token line = some tok2) :
    (first_token line = some ['t', 'e', 'm', 'p', 'o'] →
      ((∃ st1, process_line st line = .ok st1) ↔ 20 ≤ atoi tok2 ∧ atoi tok2 ≤ 400))
    ∧ (first_token line = some ['p', 'p', 'q'] →
      ((∃ st1, process_line st line = .ok st1) ↔ 48 ≤ atoi tok2 ∧ atoi tok2 ≤ 9600))
    ∧ (first_token line = some ['c', 'h', 'a', 'n', 'n', 'e', 'l'] →
      ((∃ st1, process_line st line = .ok st1) ↔ 0 ≤ atoi tok2 ∧ atoi tok2 ≤ 15))
    ∧ (first_token line = some ['r', 'e', 's', 't'] →
      ((∃ st1, process_line st line = .ok st1) ↔ 0 ≤ atoi tok2))
    ∧ (∀ (tok1 : List Char) (p : Int), first_token line = some tok1 →
        tok1 ≠ ['t', 'e', 'm', 'p', 'o'] → tok1 ≠ ['p', 'p', 'q'] →
        tok1 ≠ ['c', 'h', 'a', 'n', 'n', 'e', 'l'] → tok1 ≠ ['r', 'e', 's', 't'] →
        note_to_midi tok1 = some p →
        ((∃ st1, process_line st line = .ok st1) ↔ 0 < atoi tok2))
    ∧ (∀ (d : Char) (ds junk : List Char), (∀ c ∈ d :: ds, isdigit c = true) →
        (junk = [] ∨ ∃ j js, junk = j :: js ∧ isdigit j = false) →
        decimal_value (d :: ds) ≤ 2147483647 →
        atoi (d :: ds ++ junk) = (decimal_value (d :: ds) : Int))
    ∧ (∀ (d : Char) (ds junk : List Char), (∀ c ∈ d :: ds, isdigit c = true) →
        (junk = [] ∨ ∃ j js, junk = j :: js ∧ isdigit j = false) →
        decimal_value (d :: ds) ≤ 2147483648 →
        atoi ('-' :: (d :: ds ++ junk)) = -(decimal_value (d :: ds) : Int))
    ∧ (∀ (c : Char) (cs : List Char), isdigit c = false → isspace c = false → c ≠ '-' →
        c ≠ '+' → atoi (c :: cs) = 0) := by
  refine ⟨?_, ?_, ?_, ?_, ?_, ?_, ?_, atoi_no_digits⟩
  · intro h1
    rw [process_line_eq, parse_command_tokens line 't' _ h1 (by decide), h2]
    simp only [command_of_tokens, if_true]
    rw [ok_branch_iff]
    omega
  · intro h1
    rw [process_line_eq, parse_command_tokens line 'p' _ h1 (by decide), h2]
    have e1 : (['p', 'p', 'q'] : List Char) ≠ ['t', 'e', 'm', 'p', 'o'] := by decide
    simp only [command_of_tokens, e1, if_false, if_true]
    rw [ok_branch_iff]
    omega
  · intro h1
    rw [process_line_eq, parse_command_tokens line 'c' _ h1 (by decide), h2]
    have e1 : (['c', 'h', 'a', 'n', 'n', 'e', 'l'] : List Char) ≠ ['t', 'e', 'm', 'p', 'o'] := by
      decide
    have e2 : (['c', 'h', 'a', 'n', 'n', 'e', 'l'] : List Char) ≠ ['p', 'p', 'q'] := by decide
    simp only [command_of_tokens, e1, e2, if_false, if_true]
    rw [ok_branch_iff]
    omega
  · intro h1
    rw [process_line_eq, parse_command_tokens line 'r' _ h1 (by decide), h2]
    have e1 : (['r', 'e', 's', 't'] : List Char) ≠ ['t', 'e', 'm', 'p', 'o'] := by decide
    have e2 : (['r', 'e', 's', 't'] : List Char) ≠ ['p', 'p', 'q'] := by decide
    have e3 : (['r', 'e', 's', 't'] : List Char) ≠ ['c', 'h', 'a', 'n', 'n', 'e', 'l'] := by
      decide
    simp only [command_of_tokens, e1, e2, e3, if_false, if_true]
    rw [ok_branch_iff]
    omega
  · intro tok1 p h1 hk1 hk2 hk3 hk4 hp
    obtain ⟨c, cs, rfl, hc⟩ := note_to_midi_head tok1 p hp
    rw [process_line_eq, parse_command_tokens line c cs h1 hc, h2]
    simp only [command_of_tokens, hk1, hk2, hk3, hk4, if_false, hp]
    rw [ok_branch_iff]
    omega
  · intro d ds junk hdig hj hr
    rw [atoi_digits_then_junk d ds junk hdig hj, clamp_int_of_range _ (by omega) (by omega)]
  · intro d ds junk hdig hj hr
    rw [atoi_minus_digits_junk (d :: ds) junk hdig hj, clamp_int_of_range _ (by omega) (by omega)]

/-- Witness for C15 amended: `tempo 120abc` is accepted because `atoi` reads
120, which is within 20..400. -/
theorem numeric_argument_by_atoi_witness :
    ((∃ st1, process_line initial_state tempo_120abc_line = .ok st1)
      ↔ 20 ≤ atoi ['1', '2', '0', 'a', 'b', 'c'] ∧ atoi ['1', '2', '0', 'a', 'b', 'c'] ≤ 400)
    ∧ atoi ['1', '2', '0', 'a', 'b', 'c'] = 120 :=
  ⟨(numeric_argument_by_atoi initial_state tempo_120abc_line ['1', '2', '0', 'a', 'b', 'c']
      (by decide)).1 (by decide), by decide⟩

/-! ## Helper lemmas: the cursor -/

theorem u32_sub_add (c d : Nat) (hc : c < 4294967296) (hd : d < 4294967296) :
    u32_sub ((c + d) % 4294967296) c = d := by
  unfold u32_sub
  omega

theorem process_line_step (st st1 : State) (line : List Char)
    (h : process_line st line = .ok st1) (hs : state_ok st) :
    ∃ (d : Nat) (new : List Event), d ≤ 2147483647
      ∧ st1.curTick = (st.curTick + d) % 4294967296
      ∧ u32_sub st1.curTick st.curTick = d
      ∧ st1.events = st.events ++ new
      ∧ (st.curTick + d < 4294967296 →
          (new.map Event.time).Pairwise (fun a b => a ≤ b)
          ∧ ∀ e ∈ new, st.curTick ≤ e.time ∧ e.time ≤ st.curTick + d) := by
  have hc : st.curTick < 4294967296 := hs.2.2.2.2.2.2
  have h0 : st.curTick = (st.curTick + 0) % 4294967296 := by
    rw [Nat.add_zero, Nat.mod_eq_of_lt hc]
  have hu0 : u32_sub st.curTick st.curTick = 0 := by
    unfold u32_sub
    omega
  rcases process_line_cases st st1 line h with rfl | ⟨n, _, _, rfl⟩
    | ⟨n, _, _, _, rfl⟩ | ⟨n, _, _, rfl⟩ | ⟨ms, _, _, rfl⟩
    | ⟨p, ms, v, _, _, _, _, _, _, rfl⟩
  · exact ⟨0, [], by omega, h0, hu0, by simp, fun _ => ⟨by simp, by simp⟩⟩
  · refine ⟨0, [tempo_event st.curTick n], by omega, h0, hu0, rfl, fun _ => ⟨by simp, ?_⟩⟩
    intro e he
    rw [List.mem_singleton.mp he]
    exact ⟨Nat.le_refl _, Nat.le_add_right _ _⟩
  · exact ⟨0, [], by omega, h0, hu0, by simp, fun _ => ⟨by simp, by simp⟩⟩
  · exact ⟨0, [], by omega, h0, hu0, by simp, fun _ => ⟨by simp, by simp⟩⟩
  · have hd := ms_to_ticks_le ms st.bpm st.ppq
    exact ⟨ms_to_ticks ms st.bpm st.ppq, [], hd, rfl, u32_sub_add _ _ hc (by omega), by simp,
      fun _ => ⟨by simp, by simp⟩⟩
  · have hd := ms_to_ticks_le ms st.bpm st.ppq
    refine ⟨ms_to_ticks ms st.bpm st.ppq,
      [note_on_event st.curTick st.channel p v,
        note_off_event ((st.curTick + ms_to_ticks ms st.bpm st.ppq) % 4294967296) st.channel p],
      hd, rfl, u32_sub_add _ _ hc (by omega), by simp [add_event], fun hw => ?_⟩
    have hm := Nat.mod_eq_of_lt hw
    constructor
    · simp only [List.map_cons, List.map_nil, note_on_event, note_off_event, hm,
        List.pairwise_cons, List.mem_singleton, forall_eq, List.not_mem_nil, false_implies,
        implies_true, List.Pairwise.nil, and_true]
      omega
    · intro e he
      simp only [List.mem_cons, List.mem_singleton, List.not_mem_nil, or_false] at he
      rcases he with rfl | rfl
      · exact ⟨Nat.le_refl _, Nat.le_add_right _ _⟩
      · simp only [note_off_event, hm]
        omega

theorem parse_lines_no_wrap (ls : List (List Char)) (st st1 : State) (k : Nat)
    (h : parse_lines st k ls = .ok st1) (hs : state_ok st)
    (hw : st.curTick + total_advance st ls < 4294967296) :
    st1.curTick = st.curTick + total_advance st ls
    ∧ (st.curTick :: cursor_trace st ls).Pairwise (fun a b => a ≤ b)
    ∧ (cursor_trace st ls).length = ls.length
    ∧ ∃ new : List Event, st1.events = st.events ++ new
        ∧ (new.map Event.time).Pairwise (fun a b => a ≤ b)
        ∧ ∀ e ∈ new, st.curTick ≤ e.time ∧ e.time ≤ st1.curTick := by
  induction ls generalizing st k with
  | nil =>
    have e : st1 = st := (Except.ok.inj h).symm
    subst e
    exact ⟨rfl, by simp [cursor_trace], rfl, [], by simp, by simp, by simp⟩
  | cons l ls ih =>
    unfold parse_lines at h
    cases hl : process_line st l with
    | error e => rw [hl] at h; cases h
    | ok st2 =>
      rw [hl] at h
      simp only [] at h
      obtain ⟨d, new1, _, hc2, hu, hev, hnew⟩ := process_line_step st st2 l hl hs
      have hs2 := process_line_state_ok st st2 l hl hs
      have hta : total_advance st (l :: ls) = d + total_advance st2 ls := by
        simp only [total_advance, hl, hu]
      have htr : cursor_trace st (l :: ls) = st2.curTick :: cursor_trace st2 ls := by
        simp only [cursor_trace, hl]
      rw [hta] at hw
      have hd : st.curTick + d < 4294967296 := by omega
      have hc3 : st2.curTick = st.curTick + d := by
        rw [hc2, Nat.mod_eq_of_lt hd]
      obtain ⟨i1, i2, i3, new2, i4, i5, i6⟩ := ih st2 (k + 1) h hs2 (by omega)
      obtain ⟨n1, n2⟩ := hnew hd
      refine ⟨by omega, ?_, ?_, new1 ++ new2, ?_, ?_, ?_⟩
      · rw [htr]
        refine List.Pairwise.cons ?_ i2
        intro x hx
        have h5 := List.pairwise_cons.mp i2
        rcases List.mem_cons.mp hx with rfl | hx
        · omega
        · have := h5.1 x hx
          omega
      · rw [htr, List.length_cons, List.length_cons, i3]
      · rw [i4, hev, List.append_assoc]
      · rw [List.map_append, List.pairwise_append]
        refine ⟨n1, i5, ?_⟩
        intro a ha b hb
        obtain ⟨e1, he1, rfl⟩ := List.mem_map.mp ha
        obtain ⟨e2, he2, rfl⟩ := List.mem_map.mp hb
        have := (n2 e1 he1).2
        have := (i6 e2 he2).1
        omega
      · intro e he
        rcases List.mem_append.mp he with he | he
        · have := n2 e he
          omega
        · have := i6 e he
          omega

/-! ## Theorems: the cursor -/

/-- C16 as stated fails: in the accepted score of three lines
`rest 2147483647` the cursor is 2061584301, then 4123168602, then 1889785607:
the third line takes it past 2^32 and it wraps to a smaller value. -/
theorem cursor_wraps_after_long_rests :
    parse_score three_long_rests_score
      = .ok { initial_state with curTick := 1889785607 }
    ∧ cursor_trace initial_state (fgets_lines [] three_long_rests_score)
        = [2061584301, 4123168602, 1889785607]
    ∧ (1889785607 : Nat) < 4123168602
    ∧ 4123168602 + 2061584301 = 1889785607 + 2 ^ 32 := by
  refine ⟨rfl, rfl, by decide, by norm_num⟩

/-- C16 amended: while the cursor plus the ticks of the lines stays below 2^32,
the cursor after every line is greater than or equal to the cursor before it,
the final cursor is the exact sum, and the events are emitted with
non-decreasing times between the first and the last cursor; in general a line
advances the cursor by at most 2^31-1 ticks and the new cursor is the sum
reduced modulo 2^32. -/
theorem cursor_nondecreasing_without_wrap (st st1 : State) (k : Nat)
    (ls : List (List Char)) (h : parse_lines st k ls = .ok st1) (hs : state_ok st)
    (hw : st.curTick + total_advance st ls < 2 ^ 32) :
    st1.curTick = st.curTick + total_advance st ls
    ∧ (st.curTick :: cursor_trace st ls).Pairwise (fun a b => a ≤ b)
    ∧ (cursor_trace st ls).length = ls.length
    ∧ (∃ new : List Event, st1.events = st.events ++ new
        ∧ (new.map Event.time).Pairwise (fun a b => a ≤ b)
        ∧ ∀ e ∈ new, st.curTick ≤ e.time ∧ e.time ≤ st1.curTick)
    ∧ st1.curTick < 2 ^ 32
    ∧ (∀ (s s1 : State) (l : List Char), state_ok s → process_line s l = .ok s1 →
        ∃ d : Nat, d ≤ 2147483647 ∧ s1.curTick = (s.curTick + d) % 4294967296
          ∧ (s.curTick + d < 4294967296 → s.curTick ≤ s1.curTick)) := by
  have hw2 : st.curTick + total_advance st ls < 4294967296 := by
    norm_num at hw
    exact hw
  obtain ⟨h1, h2, h3, h4⟩ := parse_lines_no_wrap ls st st1 k h hs hw2
  refine ⟨h1, h2, h3, h4, by rw [h1]; exact hw, ?_⟩
  intro s s1 l hso hl
  obtain ⟨d, _, hd, hc, _, _, _⟩ := process_line_step s s1 l hl hso
  refine ⟨d, hd, hc, fun hlt => ?_⟩
  rw [hc, Nat.mod_eq_of_lt hlt]
  exact Nat.le_add_right _ _

/-- Witness for C16 amended: for `C4 200`, `tempo 90`, `rest 2147483647`,
`F#3 120 90` the cursor goes 192, 192, 1546188418, 1546188504. -/
theorem cursor_nondecreasing_without_wrap_witness :
    (0 :: cursor_trace initial_state (fgets_lines [] mixed_score)).Pairwise (fun a b => a ≤ b)
    ∧ cursor_trace initial_state (fgets_lines [] mixed_score)
        = [192, 192, 1546188418, 1546188504] :=
  have hp : parse_lines initial_state 0 (fgets_lines [] mixed_score)
      = .ok { bpm := 90, ppq := 480, channel := 0,
              events := [tempo_event 0 120, note_on_event 0 0 60 100, note_off_event 192 0 60,
                tempo_event 192 90, note_on_event 1546188418 0 54 90,
                note_off_event 1546188504 0 54],
              curTick := 1546188504 } := rfl
  have ht : total_advance initial_state (fgets_lines [] mixed_score) = 1546188504 := rfl
  ⟨(cursor_nondecreasing_without_wrap initial_state _ 0 (fgets_lines [] mixed_score) hp
      state_ok_initial (by rw [ht]; norm_num [initial_state])).2.1, rfl⟩

/-! ## Helper lemmas: the emitted events -/

theorem process_line_command (st st1 : State) (line : List Char)
    (h : process_line st line = .ok st1) :
    ∃ c, parse_command line = .ok c ∧ st1 = run_command st c := by
  rw [process_line_eq] at h
  cases hc : parse_command line with
  | error e => rw [hc] at h; cases h
  | ok c =>
    rw [hc] at h
    exact ⟨c, rfl, (Except.ok.inj h).symm⟩

theorem command_of_tokens_tempo (tok1 : List Char) (tok2 tok3 : Option (List Char)) (b : Int)
    (h : command_of_tokens tok1 tok2 tok3 = .ok (.tempo b)) :
    tok1 = ['t', 'e', 'm', 'p', 'o'] := by
  by_contra hne
  unfold command_of_tokens at h
  rw [if_neg hne] at h
  repeat' split at h
  all_goals cases h

theorem parse_command_tempo (line : List Char) (b : Int)
    (h : parse_command line = .ok (.tempo b)) :
    first_token line = some ['t', 'e', 'm', 'p', 'o'] := by
  unfold parse_command at h
  split at h
  · cases h
  · split at h
    · cases h
    · rename_i tok1 hf
      rw [hf, command_of_tokens_tempo tok1 _ _ b h]

theorem run_command_events (st : State) (c : Command) :
    ∃ new : List Event, (run_command st c).events = st.events ++ new
      ∧ (∀ e ∈ new, 0 ≤ e.priority ∧ (e.priority = 0 → ∃ t b, e = tempo_event t b))
      ∧ ((∀ b, c ≠ .tempo b) → ∀ e ∈ new, e.priority ≠ 0) := by
  cases c with
  | skip => exact ⟨[], by simp [run_command], by simp, by simp⟩
  | tempo b =>
    refine ⟨[tempo_event st.curTick b], rfl, ?_, fun hb => absurd rfl (hb b)⟩
    intro e he
    rw [List.mem_singleton.mp he]
    exact ⟨Int.le_refl 0, fun _ => ⟨_, _, rfl⟩⟩
  | ppq n => exact ⟨[], by simp [run_command], by simp, by simp⟩
  | channel n => exact ⟨[], by simp [run_command], by simp, by simp⟩
  | rest n => exact ⟨[], by simp [run_command], by simp, by simp⟩
  | note p ms v =>
    refine ⟨[note_on_event st.curTick st.channel p v,
      note_off_event ((st.curTick + ms_to_ticks ms st.bpm st.ppq) % 4294967296) st.channel p],
      by simp [run_command, add_event], ?_, fun _ => ?_⟩
    · intro e he
      simp only [List.mem_cons, List.mem_singleton, List.not_mem_nil, or_false] at he
      rcases he with rfl | rfl
      · simp [note_on_event]
      · simp [note_off_event]
    · intro e he
      simp only [List.mem_cons, List.mem_singleton, List.not_mem_nil, or_false] at he
      rcases he with rfl | rfl
      · simp [note_on_event]
      · simp [note_off_event]

theorem parse_lines_events (ls : List (List Char)) (st st1 : State) (k : Nat)
    (h : parse_lines st k ls = .ok st1)
    (hinv : ∀ e ∈ st.events, 0 ≤ e.priority ∧ (e.priority = 0 → ∃ t b, e = tempo_event t b)) :
    (∀ e ∈ st1.events, 0 ≤ e.priority ∧ (e.priority = 0 → ∃ t b, e = tempo_event t b))
    ∧ (∀ e ∈ st.events, e ∈ st1.events)
    ∧ ((∀ l ∈ ls, first_token l ≠ some ['t', 'e', 'm', 'p', 'o']) →
        ∀ e ∈ st1.events, e.priority = 0 → e ∈ st.events) := by
  induction ls generalizing st k with
  | nil =>
    have e : st1 = st := (Except.ok.inj h).symm
    subst e
    exact ⟨hinv, fun e he => he, fun _ e he _ => he⟩
  | cons l ls ih =>
    unfold parse_lines at h
    cases hl : process_line st l with
    | error e => rw [hl] at h; cases h
    | ok st2 =>
      rw [hl] at h
      simp only [] at h
      obtain ⟨c, hc, rfl⟩ := process_line_command st st2 l hl
      obtain ⟨new, hev, hn1, hn2⟩ := run_command_events st c
      have hinv2 : ∀ e ∈ (run_command st c).events,
          0 ≤ e.priority ∧ (e.priority = 0 → ∃ t b, e = tempo_event t b) := by
        intro e he
        rw [hev] at he
        rcases List.mem_append.mp he with he | he
        · exact hinv e he
        · exact hn1 e he
      obtain ⟨i1, i2, i3⟩ := ih (run_command st c) (k + 1) h hinv2
      refine ⟨i1, ?_, ?_⟩
      · intro e he
        apply i2
        rw [hev]
        exact List.mem_append_left _ he
      · intro hall e he hp
        have h1 := i3 (fun x hx => hall x (List.mem_cons_of_mem l hx)) e he hp
        rw [hev] at h1
        rcases List.mem_append.mp h1 with h1 | h1
        · exact h1
        · have hnt : ∀ b, c ≠ .tempo b := by
            intro b hb
            rw [hb] at hc
            exact hall l (List.mem_cons_self l ls) (parse_command_tempo l b hc)
          exact absurd hp (hn2 hnt e h1)

theorem build_track_tempo_first (b : Int) (rest : List Event) :
    (build_track (tempo_event 0 b :: rest)).take 7
      = 0 :: (tempo_event 0 b).data.take 6 := by
  rw [build_track_eq]
  have hz : u32_sub 0 0 = 0 := by decide
  have ht : (tempo_event 0 b).time = 0 := rfl
  simp only [track_body, track_deltas, List.zipWith_cons_cons, List.flatten_cons, ht, hz,
    bb_put_vlq_small [] 0 (by decide), List.nil_append]
  simp [tempo_event]

theorem sorted_first_is_tempo (events out : List Event)
    (hinv : ∀ e ∈ events, 0 ≤ e.priority ∧ (e.priority = 0 → ∃ t b, e = tempo_event t b))
    (hmem : tempo_event 0 120 ∈ events) (hq : is_qsort_result events out) :
    ∃ b rest, out = tempo_event 0 b :: rest ∧ tempo_event 0 b ∈ events := by
  obtain ⟨hperm, hsorted⟩ := hq
  have hpw := sorted_by_cmp_pairwise out hsorted
  cases out with
  | nil =>
    have := hperm.symm.subset hmem
    cases this
  | cons e0 rest =>
    have he0 : e0 ∈ events := hperm.subset (List.mem_cons_self e0 rest)
    have hle : e0.time = 0 ∧ e0.priority ≤ 0 := by
      have hm : tempo_event 0 120 ∈ e0 :: rest := hperm.symm.subset hmem
      rcases List.mem_cons.mp hm with hm | hm
      · rw [← hm]
        exact ⟨rfl, by decide⟩
      · have hc := (List.pairwise_cons.mp hpw).1 _ hm
        rw [cmp_event_le_iff] at hc
        have ht : (tempo_event 0 120).time = 0 := rfl
        have hp : (tempo_event 0 120).priority = 0 := rfl
        rw [ht, hp] at hc
        omega
    obtain ⟨hp0, hp1⟩ := hinv e0 he0
    obtain ⟨t, b, rfl⟩ := hp1 (by omega)
    have ht : t = 0 := hle.1
    subst ht
    exact ⟨b, rest, rfl, he0⟩

/-! ## Theorems: the opening tempo -/

/-- C17: for every accepted score, the empty score included, and whatever
`qsort` returns within its contract, the track body opens with a tempo
declaration at tick 0: its first four bytes are `00 FF 51 03`, and when no line
of the score is a tempo command the next three bytes are `07 A1 20`. -/
theorem track_opens_with_tempo (qsort : List Event → List Event) (input : List Char)
    (st : State) (hp : parse_score input = .ok st)
    (hq : is_qsort_result st.events (qsort st.events)) :
    (build_track (qsort st.events)).take 4 = [0x00, 0xFF, 0x51, 0x03]
    ∧ ((∀ l ∈ fgets_lines [] input, first_token l ≠ some ['t', 'e', 'm', 'p', 'o']) →
        (build_track (qsort st.events)).take 7 = [0x00, 0xFF, 0x51, 0x03, 0x07, 0xA1, 0x20])
    ∧ parse_score [] = .ok initial_state := by
  have hinit : ∀ e ∈ initial_state.events,
      0 ≤ e.priority ∧ (e.priority = 0 → ∃ t b, e = tempo_event t b) := by
    intro e he
    simp only [initial_state, add_event, List.nil_append, List.mem_singleton] at he
    rw [he]
    exact ⟨Int.le_refl 0, fun _ => ⟨_, _, rfl⟩⟩
  obtain ⟨i1, i2, i3⟩ := parse_lines_events _ initial_state st 0 hp hinit
  have hmem : tempo_event 0 120 ∈ st.events :=
    i2 _ (by simp [initial_state, add_event])
  obtain ⟨b, rest, hout, hb⟩ := sorted_first_is_tempo st.events _ i1 hmem hq
  have h7 := build_track_tempo_first b rest
  rw [← hout] at h7
  refine ⟨?_, ?_, rfl⟩
  · have h4 : (build_track (qsort st.events)).take 4
        = ((build_track (qsort st.events)).take 7).take 4 := by
      rw [List.take_take]
      rfl
    rw [h4, h7]
    rfl
  · intro hall
    have hb2 := i3 hall _ hb rfl
    simp only [initial_state, add_event, List.nil_append, List.mem_singleton] at hb2
    rw [h7, hb2]
    decide

/-- Witness for C17: the score `C4 200` sorted by the insertion sort. -/
theorem track_opens_with_tempo_witness :
    (build_track (qsort_stable c4_200_events)).take 4 = [0x00, 0xFF, 0x51, 0x03] :=
  (track_opens_with_tempo qsort_stable c4_200_score
    { bpm := 120, ppq := 480, channel := 0, events := c4_200_events, curTick := 192 } rfl
    (qsort_stable_is_qsort_result c4_200_events)).1

/-! ## Theorems: ppq and rest lines -/

/-- C18: a ppq line with a value in 48..9600 changes only the resolution: the
events already emitted, the cursor, bpm and channel are unchanged. For the lines
after it, the new value enters only the duration conversion of rest and note
lines: a blank, tempo or channel line has the same effect whatever the ppq, and
a later ppq line replaces it. -/
theorem ppq_line_effect (st : State) (line tok2 : List Char) (v : Int)
    (h1 : first_token line = some ['p', 'p', 'q'])
    (h2 : second_token line = some tok2) (hv : atoi tok2 = v)
    (hv0 : 48 ≤ v) (hv1 : v ≤ 9600) :
    process_line st line = .ok { st with ppq := v }
    ∧ ({ st with ppq := v } : State).events = st.events
    ∧ ({ st with ppq := v } : State).curTick = st.curTick
    ∧ ({ st with ppq := v } : State).bpm = st.bpm
    ∧ ({ st with ppq := v } : State).channel = st.channel
    ∧ (∀ (s : State) (q : Int) (l : List Char) (c : Command), parse_command l = .ok c →
        process_line { s with ppq := q } l = .ok (run_command { s with ppq := q } c)
        ∧ (match c with
          | .rest ms =>
            run_command { s with ppq := q } c
              = { s with
                  ppq := q
                  curTick := (s.curTick + ms_to_ticks ms s.bpm q) % 4294967296 }
          | .note p ms vel =>
            run_command { s with ppq := q } c
              = { s with
                  ppq := q
                  events := s.events ++
                    [note_on_event s.curTick s.channel p vel,
                     note_off_event ((s.curTick + ms_to_ticks ms s.bpm q) % 4294967296)
                       s.channel p]
                  curTick := (s.curTick + ms_to_ticks ms s.bpm q) % 4294967296 }
          | .ppq _ => run_command { s with ppq := q } c = run_command s c
          | .skip => run_command { s with ppq := q } c = { run_command s c with ppq := q }
          | .tempo _ => run_command { s with ppq := q } c = { run_command s c with ppq := q }
          | .channel _ =>
            run_command { s with ppq := q } c = { run_command s c with ppq := q })) := by
  refine ⟨?_, rfl, rfl, rfl, rfl, ?_⟩
  · rw [process_line_eq, parse_command_tokens line 'p' _ h1 (by decide), h2]
    have e1 : (['p', 'p', 'q'] : List Char) ≠ ['t', 'e', 'm', 'p', 'o'] := by decide
    simp only [command_of_tokens, e1, if_false, if_true, hv]
    rw [if_neg (by omega)]
    rfl
  · intro s q l c hc
    constructor
    · rw [process_line_eq, hc]
      rfl
    · cases c with
      | skip => rfl
      | tempo b => rfl
      | ppq n => rfl
      | channel n => rfl
      | rest ms => rfl
      | note p ms vel =>
        simp [run_command, add_event]

/-- Witness for C18: the line `ppq 960` in the initial state. -/
theorem ppq_line_effect_witness :
    process_line initial_state ppq_960_line = .ok { initial_state with ppq := 960 } :=
  (ppq_line_effect initial_state ppq_960_line ['9', '6', '0'] 960 (by decide) (by decide)
    (by decide) (by decide) (by decide)).1

/-! ## Helper lemmas: moving the cursor -/

theorem mod_add_swap (c d e : Nat) :
    ((c + d) % 4294967296 + e) % 4294967296 = ((c + e) % 4294967296 + d) % 4294967296 := by
  omega

theorem run_command_shifted (d : Nat) (base : List Event) (s s1 : State) (c : Command)
    (h : shifted d base s s1) : shifted d base (run_command s c) (run_command s1 c) := by
  obtain ⟨bpm, ppq, ch, evs, cur⟩ := s
  obtain ⟨bpm1, ppq1, ch1, evs1, cur1⟩ := s1
  simp only [shifted] at h
  obtain ⟨rfl, rfl, rfl, rfl, news, rfl, rfl⟩ := h
  cases c with
  | skip => exact ⟨rfl, rfl, rfl, rfl, news, rfl, rfl⟩
  | tempo b =>
    refine ⟨rfl, rfl, rfl, rfl, news ++ [tempo_event cur b], ?_, ?_⟩
    · simp [run_command, add_event]
    · simp [run_command, add_event, shift_event, tempo_event]
  | ppq n => exact ⟨rfl, rfl, rfl, rfl, news, rfl, rfl⟩
  | channel n => exact ⟨rfl, rfl, rfl, rfl, news, rfl, rfl⟩
  | rest ms =>
    refine ⟨rfl, rfl, rfl, ?_, news, rfl, rfl⟩
    simp only [run_command]
    exact mod_add_swap _ _ _
  | note p ms v =>
    refine ⟨rfl, rfl, rfl, ?_, news ++ [note_on_event cur ch1 p v,
      note_off_event ((cur + ms_to_ticks ms bpm1 ppq1) % 4294967296) ch1 p], ?_, ?_⟩
    · simp only [run_command]
      exact mod_add_swap _ _ _
    · simp [run_command, add_event]
    · simp only [run_command, add_event, shift_event, note_on_event, note_off_event,
        List.map_append, List.map_cons, List.map_nil, List.append_assoc, List.singleton_append,
        mod_add_swap cur (ms_to_ticks ms bpm1 ppq1) d]

theorem parse_lines_shifted (d : Nat) (base : List Event) (ls : List (List Char))
    (s s1 t : State) (k : Nat) (h : shifted d base s s1)
    (hp : parse_lines s k ls = .ok t) :
    ∃ t1, parse_lines s1 k ls = .ok t1 ∧ shifted d base t t1 := by
  induction ls generalizing s s1 k with
  | nil =>
    have e : t = s := (Except.ok.inj hp).symm
    subst e
    exact ⟨s1, rfl, h⟩
  | cons l ls ih =>
    unfold parse_lines at hp ⊢
    cases hl : process_line s l with
    | error e => rw [hl] at hp; cases hp
    | ok s2 =>
      rw [hl] at hp
      simp only [] at hp
      obtain ⟨c, hc, rfl⟩ := process_line_command s s2 l hl
      have hl1 : process_line s1 l = .ok (run_command s1 c) := by
        rw [process_line_eq, hc]
        rfl
      rw [hl1]
      simp only []
      exact ih (run_command s c) (run_command s1 c) (k + 1) (run_command_shifted d base s s1 c h)
        hp

theorem ms_to_ticks_zero (bpm ppq : Int) : ms_to_ticks 0 bpm ppq = 0 := by
  unfold ms_to_ticks
  simp only [Int.zero_mul]
  have h1 : wrap64 0 = 0 := by decide
  rw [h1, Int.zero_mul, h1]
  decide

/-- C19 as stated fails: after `tempo 400`, `ppq 9600` and two lines
`rest 2147483647` the cursor is 4294967294; the line `rest 1` is worth 64 ticks
and leaves the cursor at 62, the sum reduced modulo 2^32, not at the sum. -/
theorem rest_cursor_wraps :
    parse_score fast_long_rests_score = .ok fast_long_rests_state
    ∧ ms_to_ticks 1 fast_long_rests_state.bpm fast_long_rests_state.ppq = 64
    ∧ process_line fast_long_rests_state rest_1_line
        = .ok { fast_long_rests_state with curTick := 62 }
    ∧ (62 : Nat) ≠ 4294967294 + 64 := by
  refine ⟨rfl, by decide, rfl, by decide⟩

/-- C19 amended: for every rest line with `ms >= 0` in a state with cursor `c`,
no event is emitted, the cursor becomes `(c + d) mod 2^32` with
`d = ms_to_ticks ms bpm ppq`, which is `c + d` whenever `c + d < 2^32`, and bpm,
ppq and channel are unchanged; the lines after the rest are accepted as without
it, emit the same events with their times moved later by `d` ticks modulo 2^32
and end with the cursor moved by as much; `rest 0` changes nothing. -/
theorem rest_line_effect (st : State) (line tok2 : List Char) (ms : Int)
    (hs : state_ok st) (h1 : first_token line = some ['r', 'e', 's', 't'])
    (h2 : second_token line = some tok2) (hms : atoi tok2 = ms) (h0 : 0 ≤ ms) :
    process_line st line
      = .ok { st with curTick := (st.curTick + ms_to_ticks ms st.bpm st.ppq) % 4294967296 }
    ∧ (st.curTick + ms_to_ticks ms st.bpm st.ppq < 4294967296 →
        (st.curTick + ms_to_ticks ms st.bpm st.ppq) % 4294967296
          = st.curTick + ms_to_ticks ms st.bpm st.ppq)
    ∧ (ms = 0 → process_line st line = .ok st)
    ∧ (∀ (ls : List (List Char)) (k : Nat) (st1 : State), parse_lines st k ls = .ok st1 →
        ∃ news : List Event, st1.events = st.events ++ news
          ∧ parse_lines
              { st with curTick := (st.curTick + ms_to_ticks ms st.bpm st.ppq) % 4294967296 }
              k ls
            = .ok { st1 with
                events := st.events
                  ++ news.map (shift_event (ms_to_ticks ms st.bpm st.ppq))
                curTick := (st1.curTick + ms_to_ticks ms st.bpm st.ppq) % 4294967296 }) := by
  have hproc : process_line st line
      = .ok { st with
          curTick := (st.curTick + ms_to_ticks ms st.bpm st.ppq) % 4294967296 } := by
    rw [process_line_eq, parse_command_tokens line 'r' _ h1 (by decide), h2]
    have e1 : (['r', 'e', 's', 't'] : List Char) ≠ ['t', 'e', 'm', 'p', 'o'] := by decide
    have e2 : (['r', 'e', 's', 't'] : List Char) ≠ ['p', 'p', 'q'] := by decide
    have e3 : (['r', 'e', 's', 't'] : List Char) ≠ ['c', 'h', 'a', 'n', 'n', 'e', 'l'] := by
      decide
    simp only [command_of_tokens, e1, e2, e3, if_false, if_true, hms]
    rw [if_neg (by omega)]
    rfl
  refine ⟨hproc, fun h => Nat.mod_eq_of_lt h, ?_, ?_⟩
  · intro hz
    rw [hproc, hz, ms_to_ticks_zero, Nat.add_zero, Nat.mod_eq_of_lt hs.2.2.2.2.2.2]
  · intro ls k st1 hp
    have hsh : shifted (ms_to_ticks ms st.bpm st.ppq) st.events st
        { st with curTick := (st.curTick + ms_to_ticks ms st.bpm st.ppq) % 4294967296 } :=
      ⟨rfl, rfl, rfl, rfl, [], by simp, by simp⟩
    obtain ⟨t1, ht1, hb, hq, hc, hcur, news, hn1, hn2⟩ :=
      parse_lines_shifted _ _ ls _ _ st1 k hsh hp
    refine ⟨news, hn1, ?_⟩
    rw [ht1]
    obtain ⟨b1, q1, c1, e1, cur1⟩ := t1
    obtain ⟨b2, q2, c2, e2, cur2⟩ := st1
    simp only at hb hq hc hcur hn2
    subst hb hq hc hcur hn2
    rfl

/-- Witness for C19 amended: the line `rest 100` in the initial state moves the
cursor by 96 ticks. -/
theorem rest_line_effect_witness :
    process_line initial_state rest_100_line
      = .ok { initial_state with
          curTick := (initial_state.curTick
            + ms_to_ticks 100 initial_state.bpm initial_state.ppq) % 4294967296 }
    ∧ ms_to_ticks 100 initial_state.bpm initial_state.ppq = 96 :=
  ⟨(rest_line_effect initial_state rest_100_line ['1', '0', '0'] 100 state_ok_initial
      (by decide) (by decide) (by decide) (by decide)).1, by decide⟩

/-! ## Helper lemmas: relative order in a list -/

theorem two_sublist (l : List Event) (a b : Event) (ha : a ∈ l) (hb : b ∈ l) (hab : a ≠ b) :
    [a, b].Sublist l ∨ [b, a].Sublist l := by
  induction l with
  | nil => cases ha
  | cons x t ih =>
    by_cases hxa : x = a
    · subst hxa
      have hbt : b ∈ t := by
        rcases List.mem_cons.mp hb with h | h
        · exact absurd h.symm hab
        · exact h
      exact Or.inl (List.Sublist.cons₂ x (List.singleton_sublist.mpr hbt))
    · by_cases hxb : x = b
      · subst hxb
        have hat : a ∈ t := by
          rcases List.mem_cons.mp ha with h | h
          · exact absurd h.symm hxa
          · exact h
        exact Or.inr (List.Sublist.cons₂ x (List.singleton_sublist.mpr hat))
      · have hat : a ∈ t := by
          rcases List.mem_cons.mp ha with h | h
          · exact absurd h.symm hxa
          · exact h
        have hbt : b ∈ t := by
          rcases List.mem_cons.mp hb with h | h
          · exact absurd h.symm hxb
          · exact h
        rcases ih hat hbt with h | h
        · exact Or.inl (List.Sublist.cons x h)
        · exact Or.inr (List.Sublist.cons x h)

/-! ## Theorems: note-on and note-off of one note -/

/-- C20, evaluated on the code: for the accepted score `tempo 20`, `ppq 48`,
`C4 1` the duration of the note converts to 0 ticks, so its note-on (priority 2)
and its note-off (priority 1) share tick 0; in every result that `qsort` may
return the note-off comes before the note-on, and the track encodes
`00 80 3C 00` before `00 90 3C 64`. -/
theorem zero_tick_note_off_first :
    parse_score zero_tick_score
      = .ok { bpm := 20, ppq := 48, channel := 0, events := zero_tick_events, curTick := 0 }
    ∧ ms_to_ticks 1 20 48 = 0
    ∧ (∀ out : List Event, is_qsort_result zero_tick_events out →
        [note_off_event 0 0 60, note_on_event 0 0 60 100].Sublist out
        ∧ ¬ [note_on_event 0 0 60 100, note_off_event 0 0 60].Sublist out)
    ∧ build_track (qsort_stable zero_tick_events)
        = [0x00, 0xFF, 0x51, 0x03, 0x07, 0xA1, 0x20, 0x00, 0xFF, 0x51, 0x03, 0x2D, 0xC6, 0xC0,
           0x00, 0x80, 0x3C, 0x00, 0x00, 0x90, 0x3C, 0x64, 0x00, 0xFF, 0x2F, 0x00] := by
  refine ⟨rfl, by decide, ?_, ?_⟩
  · intro out hq
    have hpw := sorted_by_cmp_pairwise out hq.2
    have hnot : ¬ [note_on_event 0 0 60 100, note_off_event 0 0 60].Sublist out := by
      intro hsub
      have h2 := hpw.sublist hsub
      have h3 := (List.pairwise_cons.mp h2).1 (note_off_event 0 0 60) (List.mem_singleton.mpr rfl)
      revert h3
      decide
    have hon : note_on_event 0 0 60 100 ∈ out :=
      hq.1.symm.subset (by simp [zero_tick_events])
    have hoff : note_off_event 0 0 60 ∈ out :=
      hq.1.symm.subset (by simp [zero_tick_events])
    rcases two_sublist out _ _ hoff hon (by decide) with h | h
    · exact ⟨h, hnot⟩
    · exact absurd h hnot
  · have hs : qsort_stable zero_tick_events
        = [⟨0, 0, [255, 81, 3, 7, 161, 32, 0, 0], 6⟩, ⟨0, 0, [255, 81, 3, 45, 198, 192, 0, 0], 6⟩,
           ⟨0, 1, [128, 60, 0, 0, 0, 0, 0, 0], 3⟩, ⟨0, 2, [144, 60, 100, 0, 0, 0, 0, 0], 3⟩] := by
      decide
    rw [hs, build_track_eq]
    simp [track_body, track_deltas, u32_sub, bb_put_vlq_small]

end Text2Midi
